import Mathlib

/-!
# A verification model of the `jsonmap` declarative JSON mapping library

This development shallowly embeds the core of the `jsonmap` Go library
(files `jsonmap.go` and `validators.go`, plus the `Discriminator` variant
of the discriminated-union node) and proves properties of the embedded
operations.

Modelling conventions:
* Parsed generic JSON values (`interface{}` trees produced by
  `encoding/json`) are the inductive `JValue`; Go `nil` is `JValue.jnull`
  and JSON numbers are rationals (the mathematical value of the `float64`).
* Runtime Go values reachable through `reflect.Value` are the inductive
  `GoValue`.  A `reflect.Value` carries its type, so slice and map values
  carry the zero value of their element type (used by `reflect.New` on the
  element type).  Structs are association lists from field name to value.
* Go panics are modelled as the `Except.error` branch of the `GoM` monad;
  ordinary returned `error` values are modelled in the result types.
* Integer width: Go `int64`/`uint64` results are carried as `Int` with the
  range constraints appearing where the code enforces them.  Conversion of
  an out-of-range `float64` to an integer type is implementation-dependent
  in Go; the model fixes the behaviour of the primary (gc/amd64)
  implementation, which is documented at `cvttsd2si`.
-/

/-- A parsed generic JSON value: the `interface{}` tree produced by
`encoding/json` (`nil`, `bool`, `float64`, `string`, `[]interface{}`,
`map[string]interface{}`).  Object member order models the iteration
order of the Go map; JSON objects are key-distinct. -/
inductive JValue : Type where
  | jnull : JValue
  | jbool : Bool → JValue
  | jnum : ℚ → JValue
  | jstr : String → JValue
  | jarr : List JValue → JValue
  | jobj : List (String × JValue) → JValue
deriving Repr

/-- A runtime Go value as seen through `reflect.Value`.  `vSlice` and
`vMap` carry the zero value of the element type (reflect type
information); `vPtr`/`vIface` payloads are `none` when nil.  `vRaw` holds
a parsed JSON tree stored in an `interface{}` (as the `Interface`
validator produces for composite values). -/
inductive GoValue : Type where
  | vBool : Bool → GoValue
  | vInt : ℤ → GoValue
  | vFloat : ℚ → GoValue
  | vStr : String → GoValue
  | vStruct : List (String × GoValue) → GoValue
  | vSlice : GoValue → List GoValue → GoValue
  | vMap : GoValue → List (String × GoValue) → GoValue
  | vPtr : Option GoValue → GoValue
  | vIface : Option GoValue → GoValue
  | vRaw : JValue → GoValue
deriving Repr

/-- The error-accumulation node of `jsonmap.go`: `FieldError` with a
field name, a message and nested child errors. -/
inductive FieldError : Type where
  | mk (field : String) (message : String) (fieldErrors : List FieldError)
deriving Repr

/-- Projection: the `Field` member. -/
def FieldError.field : FieldError → String
  | .mk f _ _ => f

/-- Projection: the `Message` member. -/
def FieldError.message : FieldError → String
  | .mk _ m _ => m

/-- Projection: the `FieldErrors` member. -/
def FieldError.fieldErrors : FieldError → List FieldError
  | .mk _ _ es => es

/-- `(*FieldError).SetField`: overwrite the `Field` member. -/
def FieldError.setField : FieldError → String → FieldError
  | .mk _ m es, f => .mk f m es

/-- `NewValidationError(reason)`: a `FieldError` carrying only a message. -/
def newValidationError (reason : String) : FieldError := .mk "" reason []

/-- `NewValidationErrorWithField(field, message)`. -/
def newValidationErrorWithField (field message : String) : FieldError :=
  .mk field message []

/-- The panic channel: `Except.error msg` models a Go panic with that
message; `Except.ok` is a normal (possibly error-returning) completion. -/
abbrev GoM (α : Type) : Type := Except String α

/-- First-match association-list lookup, modelling Go map indexing
(`data[k]`) and `reflect`'s `FieldByName`. -/
def alookup {α : Type} : List (String × α) → String → Option α
  | [], _ => none
  | (k, v) :: rest, key => if k = key then some v else alookup rest key

/-- Replace the value at the first occurrence of `key` (used to model a
`reflect.Value.Set` on a struct member found by `FieldByName`). -/
def aset {α : Type} : List (String × α) → String → α → List (String × α)
  | [], _, _ => []
  | (k, v) :: rest, key, nv =>
    if k = key then (k, nv) :: rest else (k, v) :: aset rest key nv

/-- Insert-or-replace, modelling `reflect.Value.SetMapIndex`. -/
def amapSet {α : Type} : List (String × α) → String → α → List (String × α)
  | [], key, nv => [(key, nv)]
  | (k, v) :: rest, key, nv =>
    if k = key then (k, nv) :: rest else (k, v) :: amapSet rest key nv

section Float64Model

/-!
## A model of the `float64` narrowing used by the integer validators

JSON numbers reach the validators as `float64`.  The validators narrow
with `int64(f)` / `uint64(f)` and accept only when converting the result
back to `float64` reproduces `f`.  `f64ofInt` is the exact
round-to-nearest-even conversion `float64(n)` of an integer (it returns
the integer actually represented, which is exact because every rounded
value of an integer is an integral float).  `cvttsd2si` is the `int64(f)`
narrowing: truncation toward zero for in-range values; for out-of-range
values the Go specification leaves the result implementation-dependent
and the model uses the gc/amd64 behaviour (the `CVTTSD2SI` instruction
yields `math.MinInt64`).  `goUint64ofF64` is the two-branch sequence gc
emits on amd64 for `uint64(f)`. -/

/-- Truncation of a rational toward zero (the mathematical part of Go's
float-to-int conversion). -/
def ratTrunc (q : ℚ) : ℤ := if 0 ≤ q then ⌊q⌋ else -⌊-q⌋

/-- `float64(n)` for an integer `n`: round to nearest, ties to even, at
53 significant bits.  The result is returned as the exact integer the
float represents. -/
def f64ofInt (n : ℤ) : ℤ :=
  if n.natAbs ≤ 2 ^ 53 then n
  else
    let a : ℕ := n.natAbs
    let k : ℕ := Nat.log2 a + 1 - 53
    let q : ℕ := a / 2 ^ k
    let r : ℕ := a % 2 ^ k
    let half : ℕ := 2 ^ (k - 1)
    let m : ℕ :=
      if r < half then q
      else if half < r then q + 1
      else if q % 2 = 0 then q else q + 1
    (if 0 ≤ n then (1 : ℤ) else -1) * (m * 2 ^ k)

/-- `int64(f)` on gc/amd64: truncation when the truncated value is in
the `int64` range, `math.MinInt64` otherwise (`CVTTSD2SI` overflow
result).  Out-of-range behaviour is implementation-dependent per the Go
specification; this is the primary implementation's. -/
def cvttsd2si (q : ℚ) : ℤ :=
  if -(2 ^ 63) ≤ ratTrunc q ∧ ratTrunc q < 2 ^ 63 then ratTrunc q
  else -(2 ^ 63)

/-- `uint64(f)` on gc/amd64: `if f < 2^63 { uint64(int64(f)) } else
{ uint64(int64(f - 2^63)) + 2^63 }`, with the int64-to-uint64 casts and
the final addition taken modulo `2^64`. -/
def goUint64ofF64 (q : ℚ) : ℤ :=
  if q < (2 : ℚ) ^ 63 then cvttsd2si q % 2 ^ 64
  else (cvttsd2si (q - (2 : ℚ) ^ 63) + 2 ^ 63) % 2 ^ 64

end Float64Model

/-- The scalar validators of `validators.go` that the mapping engine
consumes.  The regular-expression extensions of `StringValidator` and the
UUID validator are not modelled (no claim depends on a regular
expression). -/
inductive GoValidator : Type where
  | stringV (minLen maxLen : ℕ) : GoValidator
  | booleanV : GoValidator
  | integerV (minVal maxVal : ℤ) : GoValidator
  | interfaceV : GoValidator
  | lossyUint64V (minVal maxVal : ℤ) : GoValidator
  | oneOf (allowed : List String) : GoValidator
deriving DecidableEq, Repr

/-- The Go value a parsed JSON `interface{}` is when stored as-is
(`InterfaceValidator` and `EnumeratedValuesValidator` return their input
unchanged): scalar leaves are the corresponding Go scalars, composites
stay opaque parsed trees. -/
def goOfJ : JValue → GoValue
  | .jnull => .vIface none
  | .jbool b => .vBool b
  | .jnum q => .vFloat q
  | .jstr s => .vStr s
  | j => .vRaw j

/-- `Validate(value)` of each modelled validator.  The result is
`Except.error e` for a returned `*ValidationError` (a `FieldError` with
empty field), and `Except.ok v` on success where `v = none` models a Go
`nil` result (only the `Interface` validator on JSON null). -/
def GoValidator.validate : GoValidator → JValue → Except FieldError (Option GoValue)
  | .stringV minLen maxLen, v =>
    match v with
    | .jstr s =>
      if s.utf8ByteSize < minLen then
        .error (newValidationError
          ("too short, must be at least " ++ toString minLen ++ " characters"))
      else if maxLen < s.utf8ByteSize then
        .error (newValidationError
          ("too long, may not be more than " ++ toString maxLen ++ " characters"))
      else .ok (some (.vStr s))
    | _ => .error (newValidationError "not a string")
  | .booleanV, v =>
    match v with
    | .jbool b => .ok (some (.vBool b))
    | _ => .error (newValidationError "not a boolean")
  | .integerV minVal maxVal, v =>
    match v with
    | .jnum f =>
      if (f64ofInt (cvttsd2si f) : ℚ) ≠ f then
        .error (newValidationError "not an integer")
      else
        let i := cvttsd2si f
        if i < minVal then
          .error (newValidationError
            ("too small, must be at least " ++ toString minVal))
        else if maxVal < i then
          .error (newValidationError
            ("too large, may not be larger than " ++ toString maxVal))
        else .ok (some (.vInt i))
    | _ => .error (newValidationError "not an integer")
  | .interfaceV, v =>
    match v with
    | .jnull => .ok none
    | j => .ok (some (goOfJ j))
  | .lossyUint64V minVal maxVal, v =>
    match v with
    | .jnum f =>
      if (f64ofInt (goUint64ofF64 f) : ℚ) ≠ f then
        .error (newValidationError "not an integer")
      else
        let i := goUint64ofF64 f
        if i < minVal then
          .error (newValidationError
            ("too small, must be at least " ++ toString minVal))
        else if maxVal < i then
          .error (newValidationError
            ("too large, may not be larger than " ++ toString maxVal))
        else .ok (some (.vInt i))
    | _ => .error (newValidationError "not an integer")
  | .oneOf allowed, v =>
    match v with
    | .jstr s =>
      if s ∈ allowed then .ok (some (.vStr s))
      else
        .error (newValidationError
          ("Value must be one of: " ++ toString allowed))
    | _ => .error (newValidationError "not a string")

example : GoValidator.validate (.integerV 0 10) (.jnum 7) = .ok (some (.vInt 7)) := by
  simp [GoValidator.validate, cvttsd2si, ratTrunc, f64ofInt]

example : GoValidator.validate (.stringV 1 12) (.jstr "") =
    .error (newValidationError "too short, must be at least 1 characters") := by
  simp [GoValidator.validate]
  rfl

/-!
## The mapping tree

`TypeNode` is the closed set of `TypeMap` implementations of `jsonmap.go`
that the claims exercise: `StructMap` (carrying the zero value of its
underlying struct type, as the Go value does via `UnderlyingType`),
`SliceMap` with its optional length bounds, `MapMap`, `variableType`,
`primitiveMap` and `stringRenderer`.  `MappedField` is the field
descriptor; the marshal-only `StructGetterName` alternative is not
modelled (Go method calls are outside the value model), so the embedded
mapping space is that of descriptors naming a struct member. -/

mutual

inductive TypeNode : Type where
  | structMap (underlying : List (String × GoValue)) (fields : List MappedField)
  | sliceMap (contains : TypeNode) (minLen maxLen : Option ℤ)
  | mapMap (contains : TypeNode)
  | varType (switchOnFieldName : String) (types : List (String × TypeNode))
  | primitiveMap (validator : GoValidator)
  | stringRenderer (tmpl : Option GoValue → GoValue → String)

inductive MappedField : Type where
  | mk (structFieldName : String) (jsonFieldName : String)
       (contains : Option TypeNode) (validator : Option GoValidator)
       (optional : Bool) (readOnly : Bool)

end

/-- Projection: `StructFieldName`. -/
def MappedField.structFieldName : MappedField → String
  | .mk s _ _ _ _ _ => s

/-- Projection: `JSONFieldName`. -/
def MappedField.jsonFieldName : MappedField → String
  | .mk _ j _ _ _ _ => j

/-- Projection: `Contains`. -/
def MappedField.contains : MappedField → Option TypeNode
  | .mk _ _ c _ _ _ => c

/-- Projection: `Validator`. -/
def MappedField.validator : MappedField → Option GoValidator
  | .mk _ _ _ v _ _ => v

/-- Projection: `Optional`. -/
def MappedField.optional : MappedField → Bool
  | .mk _ _ _ _ o _ => o

/-- Projection: `ReadOnly`. -/
def MappedField.readOnly : MappedField → Bool
  | .mk _ _ _ _ _ r => r

/-- Whether a parsed JSON value is the Go `nil` interface (JSON null). -/
def JValue.isNull : JValue → Bool
  | .jnull => true
  | _ => false

/-- `if len(errs.FieldErrors) != 0 { return errs }; return nil`: the
accumulated field errors wrapped in the root `FieldError`, or no error
when none were collected. -/
def wrapFieldErrors : List FieldError → Option FieldError
  | [] => none
  | es => some (.mk "" "" es)

/-- `(*SliceMap).validateSliceWithinRange`, deciding the configured
length bounds against the input length before any element is decoded. -/
def validateSliceWithinRange (minLen maxLen : Option ℤ) (n : ℕ) : Option FieldError :=
  match maxLen, minLen with
  | none, none => none
  | none, some mn =>
    if (n : ℤ) < mn then
      some (newValidationError ("must have at least " ++ toString mn ++ " elements"))
    else none
  | some mx, none =>
    if mx < (n : ℤ) then
      some (newValidationError ("must have at most " ++ toString mx ++ " elements"))
    else none
  | some mx, some mn =>
    if mx = mn then
      if (n : ℤ) ≠ mx then
        some (newValidationError ("must have " ++ toString mx ++ " elements"))
      else none
    else if mx < (n : ℤ) ∨ (n : ℤ) < mn then
      some (newValidationError
        ("must have between " ++ toString mn ++ " and " ++ toString mx ++ " elements"))
    else none

theorem alookup_sizeOf {α : Type} [SizeOf α] {l : List (String × α)} {k : String}
    {v : α} (h : alookup l k = some v) : sizeOf v < sizeOf l := by
  induction l with
  | nil => simp [alookup] at h
  | cons p rest ih =>
    obtain ⟨pk, pv⟩ := p
    by_cases hk : pk = k
    · simp [alookup, hk] at h
      subst h
      simp
      omega
    · simp [alookup, hk] at h
      have := ih h
      simp
      omega

/-- `(*variableType).pickTypeMap` of `jsonmap.go`: read the discriminator
member off the live parent struct, coerce it to a string (only the
direct-string case is modelled; `toStringable` values and other kinds
panic, as non-string non-`toStringable` values do in the source) and look
it up in the union's table.  `Except.error` (outer) is a panic; an inner
`Except.error` is the returned validation error. -/
def pickTypeMap (switchOnFieldName : String) (types : List (String × TypeNode))
    (parent : Option GoValue) : GoM (Except FieldError TypeNode) :=
  match parent with
  | none => throw "runtime error: invalid memory address or nil pointer dereference"
  | some pv =>
    match pv with
    | .vStruct pfs =>
      match alookup pfs switchOnFieldName with
      | none => throw ("no such underlying field: " ++ switchOnFieldName)
      | some fv =>
        match fv with
        | .vStr keyString =>
          match alookup types keyString with
          | none =>
            pure (.error (newValidationError
              ("invalid type identifier: '" ++ keyString ++ "'")))
          | some tm => pure (.ok tm)
        | _ => throw "cannot convert underlying field to string"
    | _ => throw "reflect: FieldByName of non-struct value"

theorem pickTypeMap_sizeOf {s : String} {types : List (String × TypeNode)}
    {parent : Option GoValue} {tm : TypeNode}
    (h : pickTypeMap s types parent = .ok (.ok tm)) : sizeOf tm < sizeOf types := by
  unfold pickTypeMap at h
  cases parent with
  | none => simp [throw, throwThe, MonadExceptOf.throw] at h
  | some pv =>
    cases pv <;> simp [throw, throwThe, MonadExceptOf.throw] at h
    rename_i pfs
    cases hf : alookup pfs s with
    | none => simp [hf, throw, throwThe, MonadExceptOf.throw] at h
    | some fv =>
      cases fv <;> simp [hf, throw, throwThe, MonadExceptOf.throw] at h
      rename_i key
      cases ht : alookup types key with
      | none => simp [ht, pure, Except.pure] at h
      | some tm2 =>
        simp [ht, pure, Except.pure] at h
        subst h
        exact alookup_sizeOf ht

theorem MappedField.contains_sizeOf {f : MappedField} {n : TypeNode}
    (h : f.contains = some n) : sizeOf n < sizeOf f := by
  cases f with
  | mk a b c v o r =>
    simp [MappedField.contains] at h
    subst h
    simp
    omega


mutual

/-- `Unmarshal(ctx, parent, partial, dstValue)` of the `TypeMap`
implementations in `jsonmap.go`.  The result is the destination value
after the call together with the returned error, and `Except.error`
models a panic.  The `Context` argument is omitted: no modelled node
reads it. -/
def unmarshalNode : TypeNode → Option GoValue → JValue → GoValue →
    GoM (GoValue × Option FieldError)
  | .structMap underlying flds, _parent, part, dst =>
    match part, dst with
    | .jnull, .vIface o => pure (.vIface o, none)
    | .jnull, .vPtr o => pure (.vPtr o, none)
    | .jobj data, .vIface _ => do
      let r ← unmarshalFields flds data underlying []
      pure (.vIface (some (.vPtr (some (.vStruct r.1)))), wrapFieldErrors r.2)
    | .jobj data, .vPtr _ => do
      let r ← unmarshalFields flds data underlying []
      pure (.vPtr (some (.vStruct r.1)), wrapFieldErrors r.2)
    | .jobj data, .vStruct fs => do
      let r ← unmarshalFields flds data fs []
      pure (.vStruct r.1, wrapFieldErrors r.2)
    | .jobj _, _ => throw "reflect: FieldByName of non-struct value"
    | _, dst => pure (dst, some (newValidationError "expected an object"))
  | .sliceMap contains minLen maxLen, _parent, part, dst =>
    match part with
    | .jarr data =>
      match validateSliceWithinRange minLen maxLen data.length with
      | some e => pure (dst, some e)
      | none =>
        match dst with
        | .vSlice z elems => do
          let r ← unmarshalElems contains (some (.vSlice z elems)) z data 0
          match wrapFieldErrors r.2 with
          | some e => pure (.vSlice z elems, some e)
          | none => pure (.vSlice z (elems ++ r.1), none)
        | _ => throw "reflect: Elem of invalid type"
    | _ => pure (dst, some (newValidationError "expected a list"))
  | .mapMap contains, _parent, part, dst =>
    match part with
    | .jobj data =>
      match dst with
      | .vMap z _old => do
        let r ← unmarshalEntries contains z data [] []
        pure (.vMap z r.1, wrapFieldErrors r.2)
      | _ => throw "reflect: MakeMap of non-map type"
    | _ => pure (dst, some (newValidationError "expected a map"))
  | .varType switchOn types, parent, part, dst =>
    match h : pickTypeMap switchOn types parent with
    | .error msg => throw msg
    | .ok (.error e) => pure (dst, some e)
    | .ok (.ok tm) => unmarshalNode tm parent part dst
  | .primitiveMap v, _parent, part, dst =>
    match v.validate part with
    | .error e => pure (dst, some e)
    | .ok none => pure (dst, none)
    | .ok (some gv) => pure (gv, none)
  | .stringRenderer _tmpl, _parent, _part, dst => pure (dst, none)
termination_by n _parent part _dst => (sizeOf n, sizeOf part)
decreasing_by
  all_goals simp_wf
  all_goals rw [Prod.lex_iff]
  all_goals simp
  all_goals try omega
  all_goals first
    | (have hsz := MappedField.contains_sizeOf (by assumption); omega)
    | (have hsz := alookup_sizeOf (by assumption); omega)
    | (have hsz := pickTypeMap_sizeOf (by assumption); omega)

/-- The field loop of `StructMap.Unmarshal`: walks the descriptors in
declared order, carrying the partially filled struct (`cur`, which is
also the parent passed to nested decodes) and the accumulated
`errs.FieldErrors` list. -/
def unmarshalFields : List MappedField → List (String × JValue) →
    List (String × GoValue) → List FieldError →
    GoM (List (String × GoValue) × List FieldError)
  | [], _data, cur, errs => pure (cur, errs)
  | f :: rest, data, cur, errs =>
    if f.readOnly then unmarshalFields rest data cur errs
    else
      match alookup cur f.structFieldName with
      | none => throw ("no such underlying field: " ++ f.structFieldName)
      | some dstField =>
        match alookup data f.jsonFieldName with
        | none =>
          if f.optional then unmarshalFields rest data cur errs
          else
            unmarshalFields rest data cur
              (errs ++ [newValidationErrorWithField f.jsonFieldName "missing required field"])
        | some val =>
          if val.isNull && f.optional then unmarshalFields rest data cur errs
          else
            match h : f.contains with
            | some node => do
              let r ← unmarshalNode node (some (.vStruct cur)) val dstField
              let cur2 := aset cur f.structFieldName r.1
              match r.2 with
              | none => unmarshalFields rest data cur2 errs
              | some e =>
                unmarshalFields rest data cur2 (errs ++ [e.setField f.jsonFieldName])
            | none =>
              match f.validator with
              | some v =>
                match v.validate val with
                | .ok (some gv) =>
                  unmarshalFields rest data (aset cur f.structFieldName gv) errs
                | .ok none => throw "reflect: Set using zero Value argument"
                | .error e =>
                  unmarshalFields rest data cur (errs ++ [e.setField f.jsonFieldName])
              | none => throw ("Field must have Contains or Validator: " ++ f.jsonFieldName)
termination_by flds data _cur _errs => (sizeOf flds, sizeOf data)
decreasing_by
  all_goals simp_wf
  all_goals rw [Prod.lex_iff]
  all_goals simp
  all_goals try omega
  all_goals first
    | (have hsz := MappedField.contains_sizeOf (by assumption); omega)
    | (have hsz := alookup_sizeOf (by assumption); omega)
    | (have hsz := pickTypeMap_sizeOf (by assumption); omega)

/-- The element loop of `SliceMap.Unmarshal`: decodes each element into
a fresh zero element slot (`z`), collecting the decoded values of the
successful elements and the index-keyed errors of the failed ones. -/
def unmarshalElems : TypeNode → Option GoValue → GoValue → List JValue → ℕ →
    GoM (List GoValue × List FieldError)
  | _contains, _parent, _z, [], _i => pure ([], [])
  | contains, parent, z, val :: rest, i => do
    let r ← unmarshalNode contains parent val z
    let rr ← unmarshalElems contains parent z rest (i + 1)
    match r.2 with
    | some e => pure (rr.1, e.setField (toString i) :: rr.2)
    | none => pure (r.1 :: rr.1, rr.2)
termination_by contains _parent _z xs _i => (sizeOf contains + 1, sizeOf xs)
decreasing_by
  all_goals simp_wf
  all_goals rw [Prod.lex_iff]
  all_goals simp
  all_goals omega

/-- The entry loop of `MapMap.Unmarshal`: decodes each value into a
fresh zero element slot, inserting successes into the freshly allocated
map (`cur`, which is also the parent passed to nested decodes) and
collecting key-keyed errors for failures. -/
def unmarshalEntries : TypeNode → GoValue → List (String × JValue) →
    List (String × GoValue) → List FieldError →
    GoM (List (String × GoValue) × List FieldError)
  | _contains, _z, [], cur, errs => pure (cur, errs)
  | contains, z, (k, val) :: rest, cur, errs => do
    let r ← unmarshalNode contains (some (.vMap z cur)) val z
    match r.2 with
    | some e => unmarshalEntries contains z rest cur (errs ++ [e.setField k])
    | none => unmarshalEntries contains z rest (amapSet cur k r.1) errs
termination_by contains _z data _cur _errs => (sizeOf contains + 1, sizeOf data)
decreasing_by
  all_goals simp_wf
  all_goals rw [Prod.lex_iff]
  all_goals simp
  all_goals omega

end

/-!
## A model of the `encoding/json` renderer

`Marshal` composes pre-rendered JSON fragments produced by
`encoding/json` for scalars and raw values.  The renderer below is the
model of that external encoder on the values the mapping engine hands
it: strings are escaped the way `encoding/json` escapes them (including
HTML escaping of `<`, `>`, `&`), integers print in decimal, Go maps and
parsed trees re-marshal with sorted object keys.  Non-integral float
formatting (shortest-representation decimal) is outside the model and
surfaces as an encoder error. -/

/-- Lowercase hexadecimal digit, for `\u00XX` escapes. -/
def hexDigit (n : ℕ) : Char :=
  if n < 10 then Char.ofNat (48 + n) else Char.ofNat (97 + (n - 10))

/-- The escaping `encoding/json` applies to one character of a string
(with default HTML escaping on). -/
def escapeChar (c : Char) : String :=
  if c = '"' then "\\\""
  else if c = '\\' then "\\\\"
  else if c = '\n' then "\\n"
  else if c = '\r' then "\\r"
  else if c = '\t' then "\\t"
  else if c.toNat < 0x20 ∨ c = '<' ∨ c = '>' ∨ c = '&' then
    "\\u00" ++ String.singleton (hexDigit (c.toNat / 16)) ++
      String.singleton (hexDigit (c.toNat % 16))
  else if c.toNat = 0x2028 then "\\u2028"
  else if c.toNat = 0x2029 then "\\u2029"
  else String.singleton c

/-- The concatenated escapes of a character list. -/
def escAll : List Char → List Char
  | [] => []
  | c :: cs => (escapeChar c).data ++ escAll cs

/-- `encoding/json` rendering of a string literal. -/
def renderString (s : String) : String :=
  "\"" ++ String.mk (escAll s.data) ++ "\""

/-- `encoding/json` rendering of a JSON number: integral values print in
decimal; shortest-float formatting of non-integral values is outside the
model. -/
def renderNum (q : ℚ) : Except String String :=
  if q.den = 1 then .ok (toString q.num)
  else .error "json: non-integral float formatting not modelled"

/-- Stable insertion into a key-sorted association list. -/
def insertByKey {α : Type} (p : String × α) : List (String × α) → List (String × α)
  | [] => [p]
  | q :: rest => if p.1 ≤ q.1 then p :: q :: rest else q :: insertByKey p rest

/-- Key-sorting of an association list (Go's `encoding/json` marshals
string-keyed maps in ascending key order). -/
def sortByKey {α : Type} : List (String × α) → List (String × α)
  | [] => []
  | p :: rest => insertByKey p (sortByKey rest)

mutual

/-- Canonical JSON text of a parsed value, with object members in list
order (used for objects whose member order is determined by the caller). -/
def renderJ : JValue → Except String String
  | .jnull => .ok "null"
  | .jbool b => .ok (if b then "true" else "false")
  | .jnum q => renderNum q
  | .jstr s => .ok (renderString s)
  | .jarr xs => do
    let fs ← renderJList xs
    pure ("[" ++ String.intercalate "," fs ++ "]")
  | .jobj ps => do
    let fs ← renderJPairs ps
    pure ("\x7b" ++ String.intercalate "," fs ++ "\x7d")

/-- Fragments of the elements of an array. -/
def renderJList : List JValue → Except String (List String)
  | [] => pure []
  | x :: xs => do
    let f ← renderJ x
    let fs ← renderJList xs
    pure (f :: fs)

/-- `"key":value` fragments of the members of an object. -/
def renderJPairs : List (String × JValue) → Except String (List String)
  | [] => pure []
  | (k, v) :: rest => do
    let f ← renderJ v
    let fs ← renderJPairs rest
    pure ((renderString k ++ ":" ++ f) :: fs)

end

mutual

/-- Recursive key-sorting of every object in a parsed tree, modelling
how `encoding/json` re-marshals a `map[string]interface{}`. -/
def sortKeysJ : JValue → JValue
  | .jarr xs => .jarr (sortKeysJList xs)
  | .jobj ps => .jobj (sortByKey (sortKeysJPairs ps))
  | j => j

def sortKeysJList : List JValue → List JValue
  | [] => []
  | x :: xs => sortKeysJ x :: sortKeysJList xs

def sortKeysJPairs : List (String × JValue) → List (String × JValue)
  | [] => []
  | (k, v) :: rest => (k, sortKeysJ v) :: sortKeysJPairs rest

end

mutual

/-- `json.Marshal` of a live Go value, as the engine invokes it for
fields without a nested node (`passthroughMarshaler`, `marshalField`'s
validator branch): pointers and interfaces deref (nil renders `null`),
structs render their members in declaration order under the member
names, maps render with sorted keys, stored parsed trees re-marshal with
sorted keys. -/
def renderGo : GoValue → Except String String
  | .vBool b => .ok (if b then "true" else "false")
  | .vInt n => .ok (toString n)
  | .vFloat q => renderNum q
  | .vStr s => .ok (renderString s)
  | .vStruct fs => do
    let ps ← renderGoPairs fs
    pure ("\x7b" ++
      String.intercalate "," (ps.map fun p => renderString p.1 ++ ":" ++ p.2) ++ "\x7d")
  | .vSlice _z xs => do
    let fs ← renderGoList xs
    pure ("[" ++ String.intercalate "," fs ++ "]")
  | .vMap _z es => do
    let ps ← renderGoPairs es
    pure ("\x7b" ++
      String.intercalate ","
        ((sortByKey ps).map fun p => renderString p.1 ++ ":" ++ p.2) ++ "\x7d")
  | .vPtr none => .ok "null"
  | .vPtr (some v) => renderGo v
  | .vIface none => .ok "null"
  | .vIface (some v) => renderGo v
  | .vRaw j => renderJ (sortKeysJ j)

def renderGoList : List GoValue → Except String (List String)
  | [] => pure []
  | x :: xs => do
    let f ← renderGo x
    let fs ← renderGoList xs
    pure (f :: fs)

def renderGoPairs : List (String × GoValue) → Except String (List (String × String))
  | [] => pure []
  | (k, v) :: rest => do
    let f ← renderGo v
    let fs ← renderGoPairs rest
    pure ((k, f) :: fs)

end

/-!
## The `Marshal` side of the mapping engine
-/

/-- The indirection unwrapping at the head of `StructMap.Marshal`: one
`Interface` `Elem()` then one `Ptr` `Elem()`, tracking `IsNil` at each
step.  Returns the nil flag and the unwrapped source value. -/
def unwrapForMarshal (src : GoValue) : Bool × GoValue :=
  match src with
  | .vIface none => (true, .vIface none)
  | .vIface (some x) =>
    match x with
    | .vPtr none => (true, x)
    | .vPtr (some y) => (false, y)
    | _ => (false, x)
  | .vPtr none => (true, src)
  | .vPtr (some y) => (false, y)
  | _ => (false, src)

/-- `src.IsNil()` for the nilable kinds a union field can have; `none`
when `IsNil` would panic (non-nilable kind).  Model note: nil slices and
nil maps are not distinguished from empty ones, so those report
non-nil. -/
def goIsNil (src : GoValue) : Option Bool :=
  match src with
  | .vIface o => some o.isNone
  | .vPtr o => some o.isNone
  | .vSlice _ _ => some false
  | .vMap _ _ => some false
  | _ => none

mutual

/-- `Marshal(ctx, parent, src)` of the `TypeMap` implementations in
`jsonmap.go`.  The outer `GoM` layer is the panic channel; the inner
`Except` is the returned `error`; the inner `String` is the bytes of the
produced `json.Marshaler` fragment. -/
def marshalNode : TypeNode → Option GoValue → GoValue → GoM (Except String String)
  | .structMap underlying flds, _parent, src =>
    match unwrapForMarshal src with
    | (true, _) => pure (.ok "null")
    | (false, src2) =>
      match src2 with
      | .vStruct fs =>
        if fs.map Prod.fst = underlying.map Prod.fst then do
          let r ← marshalFields flds (.vStruct fs) fs 0 flds.length "\x7b"
          match r with
          | .error e => pure (.error e)
          | .ok buf => pure (.ok (buf ++ "\x7d"))
        else throw "wrong type"
      | _ => throw "wrong type"
  | .sliceMap contains _minLen _maxLen, _parent, src =>
    match src with
    | .vPtr none => throw "reflect: IsNil of invalid Value"
    | .vPtr (some s2) =>
      match s2 with
      | .vSlice z xs => do
        let r ← marshalElemsList contains (some (.vSlice z xs)) xs
        match r with
        | .error e => pure (.error e)
        | .ok frags => pure (.ok ("[" ++ String.intercalate "," frags ++ "]"))
      | _ => throw "reflect: IsNil of non-nilable value"
    | .vSlice z xs => do
      let r ← marshalElemsList contains (some (.vSlice z xs)) xs
      match r with
      | .error e => pure (.error e)
      | .ok frags => pure (.ok ("[" ++ String.intercalate "," frags ++ "]"))
    | _ => throw "reflect: IsNil of non-nilable value"
  | .mapMap contains, _parent, src =>
    match src with
    | .vPtr none => throw "reflect: IsNil of invalid Value"
    | .vPtr (some s2) =>
      match s2 with
      | .vMap z es => do
        let r ← marshalPairsList contains (some (.vMap z es)) es
        match r with
        | .error e => pure (.error e)
        | .ok ps =>
          pure (.ok ("\x7b" ++
            String.intercalate ","
              ((sortByKey ps).map fun p => renderString p.1 ++ ":" ++ p.2) ++ "\x7d"))
      | _ => throw "reflect: IsNil of non-nilable value"
    | .vMap z es => do
      let r ← marshalPairsList contains (some (.vMap z es)) es
      match r with
      | .error e => pure (.error e)
      | .ok ps =>
        pure (.ok ("\x7b" ++
          String.intercalate ","
            ((sortByKey ps).map fun p => renderString p.1 ++ ":" ++ p.2) ++ "\x7d"))
    | _ => throw "reflect: IsNil of non-nilable value"
  | .varType switchOn types, parent, src =>
    match goIsNil src with
    | none => throw "reflect: IsNil of non-nilable value"
    | some true => pure (.ok "null")
    | some false =>
      match h : pickTypeMap switchOn types parent with
      | .error msg => throw msg
      | .ok (.error e) =>
        throw ("variable type serialization error: " ++ e.message)
      | .ok (.ok tm) => marshalNode tm parent src
  | .primitiveMap _v, _parent, src => pure (renderGo src)
  | .stringRenderer tmpl, parent, src =>
    pure (.ok (renderString (tmpl parent src)))
termination_by n _parent _src => (sizeOf n, 0)
decreasing_by
  all_goals simp_wf
  all_goals rw [Prod.lex_iff]
  all_goals simp
  all_goals try omega
  all_goals (have hsz := pickTypeMap_sizeOf (by assumption); omega)

/-- The field loop of `StructMap.Marshal`: appends
`"name":fragment` for every descriptor in declared order (read-only
included), a comma after every pair except the last (`i != len-1`). -/
def marshalFields : List MappedField → GoValue → List (String × GoValue) →
    ℕ → ℕ → String → GoM (Except String String)
  | [], _parent, _fs, _i, _n, buf => pure (.ok buf)
  | f :: rest, parent, fs, i, n, buf =>
    if f.structFieldName = "" then
      throw "either StructFieldName or StructGetterName must be specified"
    else
      match alookup fs f.structFieldName with
      | none => throw ("no such underlying field: " ++ f.structFieldName)
      | some srcField => do
        let valRes ←
          match h : f.contains with
          | some node => marshalNode node (some parent) srcField
          | none => pure (renderGo srcField)
        match valRes with
        | .error e => pure (.error e)
        | .ok valbuf =>
          let keybuf := renderString f.jsonFieldName
          let buf2 := buf ++ keybuf ++ ":" ++ valbuf ++ (if i ≠ n - 1 then "," else "")
          marshalFields rest parent fs (i + 1) n buf2
termination_by flds _parent _fs _i _n _buf => (sizeOf flds, 0)
decreasing_by
  all_goals simp_wf
  all_goals rw [Prod.lex_iff]
  all_goals simp
  all_goals try omega
  all_goals (have hsz := MappedField.contains_sizeOf (by assumption); omega)

/-- The element loop of `SliceMap.Marshal`: each element's fragment via
the child node; any error aborts the whole encode. -/
def marshalElemsList : TypeNode → Option GoValue → List GoValue →
    GoM (Except String (List String))
  | _c, _parent, [] => pure (.ok [])
  | c, parent, x :: xs => do
    let r ← marshalNode c parent x
    match r with
    | .error e => pure (.error e)
    | .ok frag => do
      let rr ← marshalElemsList c parent xs
      match rr with
      | .error e => pure (.error e)
      | .ok frags => pure (.ok (frag :: frags))
termination_by c _parent xs => (sizeOf c, sizeOf xs + 1)
decreasing_by
  all_goals simp_wf
  all_goals rw [Prod.lex_iff]
  all_goals simp
  all_goals omega

/-- The entry loop of `MapMap.Marshal`: each value's fragment via the
child node, keyed for the sorted re-marshal of the result map. -/
def marshalPairsList : TypeNode → Option GoValue → List (String × GoValue) →
    GoM (Except String (List (String × String)))
  | _c, _parent, [] => pure (.ok [])
  | c, parent, (k, v) :: rest => do
    let r ← marshalNode c parent v
    match r with
    | .error e => pure (.error e)
    | .ok frag => do
      let rr ← marshalPairsList c parent rest
      match rr with
      | .error e => pure (.error e)
      | .ok ps => pure (.ok ((k, frag) :: ps))
termination_by c _parent es => (sizeOf c, sizeOf es + 1)
decreasing_by
  all_goals simp_wf
  all_goals rw [Prod.lex_iff]
  all_goals simp
  all_goals omega

end

/-!
## The `Discriminator` variant of the union node

The repository also carries the `Discriminator` form of the
discriminated-union node (`PropertyName`/`Mapping`), whose `pickTypeMap`
refines the unknown-discriminator error: a non-empty unknown value
reports `invalid type identifier: '<value>'`, while an empty value
reports `cannot validate, invalid input for '<json tag>'` when the
parent's struct field carries a usable `json` tag, and plain
`invalid type identifier` otherwise.  The parent struct is modelled with
its reflect-visible field metadata: name, current value, `json` tag. -/

/-- One field of the parent struct as `Discriminator.pickTypeMap` sees
it: the member name, its current value, and the value of its `json`
struct tag (what `Tag.Get("json")` returns). -/
structure GoStructField : Type where
  name : String
  value : GoValue
  jsonTag : String

/-- `FieldByName` over the modelled parent fields. -/
def findStructField : List GoStructField → String → Option GoStructField
  | [], _ => none
  | f :: rest, key => if f.name = key then some f else findStructField rest key

/-- `parseJsonTag`: the JSON member name of a `json:"..."` struct tag
(`"bar,omitempty"` gives `"bar"`, `""` and `"-"` give `""`). -/
def parseJsonTag (tag : String) : String :=
  if tag = "" ∨ tag = "-" then ""
  else String.mk (tag.data.takeWhile fun c => c ≠ ',')

/-- `(*Discriminator).pickTypeMap`: the discriminator value is read off
the live parent, coerced to a string, and looked up in `Mapping`; the
error refinement for unknown values is as described above.  As with the
`variableType` form, only the direct-string coercion is modelled. -/
def Discriminator.pickTypeMap {α : Type} (propertyName : String)
    (mapping : List (String × α)) (parent : List GoStructField) :
    GoM (Except FieldError α) :=
  match findStructField parent propertyName with
  | none => throw ("no such underlying field: " ++ propertyName)
  | some f =>
    match f.value with
    | .vStr keyString =>
      match alookup mapping keyString with
      | some tm => pure (.ok tm)
      | none =>
        if keyString ≠ "" then
          pure (.error (newValidationError
            ("invalid type identifier: '" ++ keyString ++ "'")))
        else
          if parseJsonTag f.jsonTag ≠ "" then
            pure (.error (newValidationError
              ("cannot validate, invalid input for '" ++ parseJsonTag f.jsonTag ++ "'")))
          else pure (.error (newValidationError "invalid type identifier"))
    | _ => throw "cannot convert underlying field to string"

/-!
## The registry and the top-level API (`TypeMapper`)

Type identities are modelled symbolically: a registered struct type is a
name, and the destination/source types passed to the API are built from
struct names with pointer and slice constructors, mirroring what
`reflect.TypeOf` exposes to `getTypeMap`. -/

/-- A runtime type identity as `getTypeMap` inspects it. -/
inductive GoType : Type where
  | structT (name : String)
  | sliceT (elem : GoType)
  | ptrT (elem : GoType)
deriving DecidableEq, Repr

/-- Printed form for panic messages. -/
def GoType.typeString : GoType → String
  | .structT n => "jsonmap_test." ++ n
  | .sliceT e => "[]" ++ e.typeString
  | .ptrT e => "*" ++ e.typeString

/-- Registry lookup (`tm.typeMaps[t]`). -/
def tlookup : List (GoType × TypeNode) → GoType → Option TypeNode
  | [], _ => none
  | (k, v) :: rest, key => if k = key then some v else tlookup rest key

/-- `(*TypeMapper).getTypeMap`: note the order of the unwrapping — the
slice check happens before the pointer dereference, so `[]T` and `*T`
resolve for a registered `T` (a slice wrapping in `SliceOf`), but
`*[]T` dereferences to `[]T` and then fails the registry lookup with a
panic. -/
def getTypeMap (reg : List (GoType × TypeNode)) (t : GoType) : GoM TypeNode :=
  let p : Bool × GoType :=
    match t with
    | .sliceT e => (true, e)
    | _ => (false, t)
  let t2 : GoType :=
    match p.2 with
    | .ptrT e => e
    | _ => p.2
  match tlookup reg t2 with
  | none => throw ("no TypeMap registered for type: " ++ t2.typeString)
  | some m => pure (if p.1 then .sliceMap m none none else m)

/-- `jsonpointer` token escaping (`~` to `~0`, `/` to `~1`). -/
def jptrEscape (s : String) : String :=
  (s.replace "~" "~0").replace "/" "~1"

/-- `JSONPointerFromTokens(...).String()`. -/
def jptrString (tokens : List String) : String :=
  String.join (tokens.map fun t => "/" ++ jptrEscape t)

/-- A `FlattenedPathError`: one `(path, message)` pair of the flattened
validation error list. -/
structure FlattenedPathError : Type where
  path : String
  message : String
deriving DecidableEq, Repr

mutual

/-- `(*ValidationError).AddError`: walk an error subtree accumulating
the path, emitting a flattened entry for every node with a non-empty
message. -/
def addErrorPaths : List String → FieldError → List FlattenedPathError
  | path, .mk field message children =>
    let path2 := path ++ [field]
    (if message ≠ "" then [⟨jptrString path2, message⟩] else []) ++
      addErrorPathsList path2 children

/-- `AddError` over a list of child errors. -/
def addErrorPathsList : List String → List FieldError → List FlattenedPathError
  | _path, [] => []
  | path, e :: rest => addErrorPaths path e ++ addErrorPathsList path rest

end

/-- `(*FieldError).Flatten`: the `ValidationError` built from the root's
children. -/
def flattenFieldError (e : FieldError) : List FlattenedPathError :=
  addErrorPathsList [] e.fieldErrors

/-- The error returned by `(*TypeMapper).Unmarshal`: either a bare
`*FieldError`/`*ValidationError` from the JSON parse wrapper, or the
flattened validation-error list. -/
inductive TMErr : Type where
  | parseErr (e : FieldError)
  | validationErr (es : List FlattenedPathError)
deriving Repr

/-- The destination argument of `(*TypeMapper).Unmarshal`: the untyped
nil interface, or a value of type `ty` whose pointed-to current value
(`reflect.ValueOf(dest).Elem()`) is `pointee`. -/
inductive GoDest : Type where
  | nilDest
  | mk (ty : GoType) (pointee : GoValue)

/-- Whether a type's kind is `reflect.Ptr`. -/
def GoType.isPtrType : GoType → Bool
  | .ptrT _ => true
  | _ => false

/-!
## A model of `encoding/json` text parsing

`(*TypeMapper).Unmarshal` first parses the raw bytes into a generic
value tree with `encoding/json`.  The recursive-descent parser below
models that external parser on the grammar the engine's own renderer
emits (no inter-token whitespace; numbers are optionally signed decimal
integer literals).  Recursion is bounded by a fuel parameter; the
top-level entry supplies `length + 1` fuel, which the round-trip lemmas
show is sufficient on rendered output. -/

/-- The `{` character (0x7b). -/
def lbrace : Char := Char.ofNat 123

/-- The `}` character (0x7d). -/
def rbrace : Char := Char.ofNat 125

/-- Value of one hexadecimal digit character. -/
def hexVal (c : Char) : Option ℕ :=
  if '0' ≤ c ∧ c ≤ '9' then some (c.toNat - 48)
  else if 'a' ≤ c ∧ c ≤ 'f' then some (c.toNat - 87)
  else if 'A' ≤ c ∧ c ≤ 'F' then some (c.toNat - 55)
  else none

/-- Longest-munch decimal digits with an accumulator. -/
def takeDigits : List Char → ℕ → ℕ × List Char
  | [], acc => (acc, [])
  | c :: rest, acc =>
    if c.isDigit then takeDigits rest (acc * 10 + (c.toNat - 48)) else (acc, c :: rest)

/-- A nonempty run of decimal digits. -/
def parseNat : List Char → Option (ℕ × List Char)
  | [] => none
  | c :: rest => if c.isDigit then some (takeDigits rest (c.toNat - 48)) else none

/-- An optionally negated decimal integer literal. -/
def parseNumber (input : List Char) : Option (ℚ × List Char) :=
  match input with
  | '-' :: rest =>
    match parseNat rest with
    | some (n, r) => some (-(n : ℚ), r)
    | none => none
  | _ =>
    match parseNat input with
    | some (n, r) => some ((n : ℚ), r)
    | none => none

/-- The body of a string literal after the opening quote, undoing the
escapes `escapeChar` can produce: returns the unescaped characters and
the input after the closing quote. -/
def parseStringBody : List Char → Option (List Char × List Char)
  | [] => none
  | '"' :: rest => some ([], rest)
  | '\\' :: 'n' :: rest =>
    match parseStringBody rest with
    | some (cs, r) => some ('\n' :: cs, r)
    | none => none
  | '\\' :: 'r' :: rest =>
    match parseStringBody rest with
    | some (cs, r) => some ('\r' :: cs, r)
    | none => none
  | '\\' :: 't' :: rest =>
    match parseStringBody rest with
    | some (cs, r) => some ('\t' :: cs, r)
    | none => none
  | '\\' :: '"' :: rest =>
    match parseStringBody rest with
    | some (cs, r) => some ('"' :: cs, r)
    | none => none
  | '\\' :: '\\' :: rest =>
    match parseStringBody rest with
    | some (cs, r) => some ('\\' :: cs, r)
    | none => none
  | '\\' :: 'u' :: a :: b :: c :: d :: rest =>
    match hexVal a, hexVal b, hexVal c, hexVal d with
    | some ha, some hb, some hc, some hd =>
      match parseStringBody rest with
      | some (cs, r) =>
        some (Char.ofNat (ha * 4096 + hb * 256 + hc * 16 + hd) :: cs, r)
      | none => none
    | _, _, _, _ => none
  | '\\' :: _ => none
  | c :: rest =>
    match parseStringBody rest with
    | some (cs, r) => some (c :: cs, r)
    | none => none

mutual

/-- One JSON value at the head of the input. -/
def parseValueF : ℕ → List Char → Option (JValue × List Char)
  | 0, _ => none
  | _ + 1, [] => none
  | fuel + 1, c :: rest =>
    if c = 'n' then
      match rest with
      | 'u' :: 'l' :: 'l' :: r => some (.jnull, r)
      | _ => none
    else if c = 't' then
      match rest with
      | 'r' :: 'u' :: 'e' :: r => some (.jbool true, r)
      | _ => none
    else if c = 'f' then
      match rest with
      | 'a' :: 'l' :: 's' :: 'e' :: r => some (.jbool false, r)
      | _ => none
    else if c = '"' then
      match parseStringBody rest with
      | some (cs, r) => some (.jstr (String.mk cs), r)
      | none => none
    else if c = '[' then
      match rest with
      | ']' :: r => some (.jarr [], r)
      | _ =>
        match parseElemsF fuel rest with
        | some (xs, r) => some (.jarr xs, r)
        | none => none
    else if c = lbrace then
      match rest with
      | c2 :: r2 =>
        if c2 = '"' then
          match parseMembersF fuel rest with
          | some (ps, r) => some (.jobj ps, r)
          | none => none
        else if c2 = rbrace then some (.jobj [], r2)
        else none
      | [] => none
    else if c = '-' ∨ c.isDigit then
      match parseNumber (c :: rest) with
      | some (q, r) => some (.jnum q, r)
      | none => none
    else none

/-- Comma-separated values up to the closing `]`. -/
def parseElemsF : ℕ → List Char → Option (List JValue × List Char)
  | 0, _ => none
  | fuel + 1, input =>
    match parseValueF fuel input with
    | some (v, r) =>
      match r with
      | ',' :: r2 =>
        match parseElemsF fuel r2 with
        | some (xs, r3) => some (v :: xs, r3)
        | none => none
      | ']' :: r2 => some ([v], r2)
      | _ => none
    | none => none

/-- Comma-separated `"key":value` members up to the closing brace. -/
def parseMembersF : ℕ → List Char → Option (List (String × JValue) × List Char)
  | 0, _ => none
  | fuel + 1, input =>
    match input with
    | '"' :: r0 =>
      match parseStringBody r0 with
      | some (k, r1) =>
        match r1 with
        | ':' :: r2 =>
          match parseValueF fuel r2 with
          | some (v, r3) =>
            match r3 with
            | ',' :: r4 =>
              match parseMembersF fuel r4 with
              | some (ps, r5) => some ((String.mk k, v) :: ps, r5)
              | none => none
            | c5 :: r4 =>
              if c5 = rbrace then some ([(String.mk k, v)], r4) else none
            | [] => none
          | none => none
        | _ => none
      | none => none
    | _ => none

end

/-- Parsing of a complete input: one value consuming all bytes. -/
def parseJson (s : String) : Option JValue :=
  match parseValueF (s.length + 1) s.data with
  | some (j, []) => some j
  | _ => none

/-- The `json.Unmarshal(data, &partial)` step of
`(*TypeMapper).Unmarshal`, whose target is a `map[string]interface{}`:
an object yields its members, the `null` literal leaves the map empty,
any other top-level value is an `UnmarshalTypeError` which the engine
wraps as shown; a syntax failure is wrapped as a validation error whose
message comes from the `json` package (the exact `SyntaxError` text is
not modelled). -/
def parseTopObject (data : String) : Except FieldError (List (String × JValue)) :=
  match parseJson data with
  | none => .error (newValidationError "invalid JSON input")
  | some (.jobj fs) => .ok fs
  | some .jnull => .ok []
  | some _ => .error (newValidationError "json: cannot unmarshal, not an object")

/-- The part of `(*TypeMapper).Unmarshal` after the destination guard:
node resolution, byte parsing, decode, error flattening. -/
def tmUnmarshalBody (reg : List (GoType × TypeNode)) (data : String)
    (ty : GoType) (pointee : GoValue) : GoM (GoValue × Option TMErr) := do
  let m ← getTypeMap reg ty
  match parseTopObject data with
  | .error e => pure (pointee, some (.parseErr e))
  | .ok pobj => do
    let r ← unmarshalNode m none (.jobj pobj) pointee
    match r.2 with
    | some e => pure (r.1, some (.validationErr (flattenFieldError e)))
    | none => pure (r.1, none)

/-- `(*TypeMapper).Unmarshal(ctx, data, dest)`: panic on a nil or
non-pointer destination (`reflect.TypeOf(nil).Kind()` already faults on
the untyped nil), then the body above.  The result carries the value
behind the destination pointer after the call. -/
def tmUnmarshal (reg : List (GoType × TypeNode)) (data : String) (dest : GoDest) :
    GoM (GoValue × Option TMErr) :=
  match dest with
  | .nilDest => throw "runtime error: invalid memory address or nil pointer dereference"
  | .mk ty pointee =>
    if ¬ ty.isPtrType then throw "cannot unmarshal to non-pointer"
    else tmUnmarshalBody reg data ty pointee

/-- `(*TypeMapper).Marshal(ctx, src)`: resolve the node for the source
type and delegate; the fragment's bytes are the result. -/
def tmMarshal (reg : List (GoType × TypeNode)) (ty : GoType) (src : GoValue) :
    GoM (Except String String) := do
  let m ← getTypeMap reg ty
  marshalNode m none src

/-!
## Facts about the float narrowing model
-/

theorem ratTrunc_intCast (n : ℤ) : ratTrunc (n : ℚ) = n := by
  unfold ratTrunc
  by_cases h : (0 : ℚ) ≤ (n : ℚ)
  · rw [if_pos h, Int.floor_intCast]
  · rw [if_neg h, ← Int.cast_neg, Int.floor_intCast, neg_neg]

theorem f64ofInt_nonneg {n : ℤ} (h : 0 ≤ n) : 0 ≤ f64ofInt n := by
  unfold f64ofInt
  split
  · exact h
  · dsimp only
    positivity

theorem f64ofInt_zero : f64ofInt 0 = 0 := by
  unfold f64ofInt
  norm_num

theorem log2_two_pow_63 : Nat.log2 (2 ^ 63) = 63 := by
  rw [Nat.log2_eq_log_two]
  exact Nat.log_pow (by norm_num) 63

theorem f64ofInt_two_pow63 : f64ofInt (2 ^ 63) = 2 ^ 63 := by
  unfold f64ofInt
  have ha : ((2 : ℤ) ^ 63).natAbs = 2 ^ 63 := by norm_num
  rw [if_neg (by rw [ha]; norm_num)]
  simp only [ha, log2_two_pow_63]
  norm_num

theorem f64ofInt_neg_two_pow63 : f64ofInt (-(2 ^ 63)) = -(2 ^ 63) := by
  unfold f64ofInt
  have ha : (-(2 : ℤ) ^ 63).natAbs = 2 ^ 63 := by norm_num
  rw [if_neg (by rw [ha]; norm_num)]
  rw [if_neg (by norm_num)]
  simp only [ha, log2_two_pow_63]
  norm_num

theorem cvttsd2si_mem_range (q : ℚ) :
    -(2 ^ 63) ≤ cvttsd2si q ∧ cvttsd2si q < 2 ^ 63 := by
  unfold cvttsd2si
  split
  · assumption
  · constructor <;> norm_num

theorem cvttsd2si_high {q : ℚ} (h : (2 : ℚ) ^ 63 ≤ q) : cvttsd2si q = -(2 ^ 63) := by
  unfold cvttsd2si
  have h0 : (0 : ℚ) ≤ q := le_trans (by positivity) h
  have htr : ratTrunc q = ⌊q⌋ := by unfold ratTrunc; rw [if_pos h0]
  have hge : (2 ^ 63 : ℤ) ≤ ⌊q⌋ := by
    rw [Int.le_floor]
    exact_mod_cast h
  rw [if_neg (by omega)]

theorem cvttsd2si_low {q : ℚ} (h : q ≤ -((2 : ℚ) ^ 63)) : cvttsd2si q = -(2 ^ 63) := by
  unfold cvttsd2si
  have h0 : ¬(0 : ℚ) ≤ q := by
    intro hc
    nlinarith
  have htr : ratTrunc q = -⌊-q⌋ := by unfold ratTrunc; rw [if_neg h0]
  have hge : (2 ^ 63 : ℤ) ≤ ⌊-q⌋ := by
    rw [Int.le_floor]
    push_cast
    linarith
  by_cases he : ratTrunc q = -(2 ^ 63)
  · split
    · exact he
    · rfl
  · rw [if_neg (by omega)]

theorem integerV_check_fail {q : ℚ} {mn mx : ℤ}
    (h : (f64ofInt (cvttsd2si q) : ℚ) ≠ q) :
    GoValidator.validate (.integerV mn mx) (.jnum q) =
      .error (newValidationError "not an integer") := by
  simp only [GoValidator.validate]
  rw [if_pos h]

theorem integerV_ok_inv {q : ℚ} {mn mx : ℤ} {v : Option GoValue}
    (h : GoValidator.validate (.integerV mn mx) (.jnum q) = .ok v) :
    (f64ofInt (cvttsd2si q) : ℚ) = q ∧ v = some (.vInt (cvttsd2si q)) := by
  by_cases hc : (f64ofInt (cvttsd2si q) : ℚ) ≠ q
  · rw [integerV_check_fail hc] at h
    exact absurd h (by simp)
  · push_neg at hc
    refine ⟨hc, ?_⟩
    simp only [GoValidator.validate] at h
    rw [if_neg (not_not_intro hc)] at h
    split_ifs at h
    all_goals simp_all

theorem lossyV_check_fail {q : ℚ} {mn mx : ℤ}
    (h : (f64ofInt (goUint64ofF64 q) : ℚ) ≠ q) :
    GoValidator.validate (.lossyUint64V mn mx) (.jnum q) =
      .error (newValidationError "not an integer") := by
  simp only [GoValidator.validate]
  rw [if_pos h]

theorem lossyV_ok_inv {q : ℚ} {mn mx : ℤ} {v : Option GoValue}
    (h : GoValidator.validate (.lossyUint64V mn mx) (.jnum q) = .ok v) :
    (f64ofInt (goUint64ofF64 q) : ℚ) = q ∧ v = some (.vInt (goUint64ofF64 q)) := by
  by_cases hc : (f64ofInt (goUint64ofF64 q) : ℚ) ≠ q
  · rw [lossyV_check_fail hc] at h
    exact absurd h (by simp)
  · push_neg at hc
    refine ⟨hc, ?_⟩
    simp only [GoValidator.validate] at h
    rw [if_neg (not_not_intro hc)] at h
    split_ifs at h
    all_goals simp_all

theorem goUint64ofF64_bounds (q : ℚ) :
    0 ≤ goUint64ofF64 q ∧ goUint64ofF64 q < 2 ^ 64 := by
  unfold goUint64ofF64
  split
  · exact ⟨Int.emod_nonneg _ (by norm_num), Int.emod_lt_of_pos _ (by norm_num)⟩
  · exact ⟨Int.emod_nonneg _ (by norm_num), Int.emod_lt_of_pos _ (by norm_num)⟩

/-- C8.  For every JSON number presented to the integer validators
(`IntegerValidator` and `LossyUint64Validator` of `validators.go`,
numbers arriving as `float64`): a non-integral float is rejected with
the `not an integer` validation error; a float whose magnitude falls
outside the target 64-bit integer range (beyond the `int64` range for
`IntegerValidator`; negative or at least `2^64` for
`LossyUint64Validator`) is rejected rather than silently narrowed; and
whenever a validator accepts, the integer it produces converts back to
exactly the presented float — no magnitude loss is silently accepted.
The float-to-integer narrowing of out-of-range values is modelled with
the gc/amd64 semantics (see `cvttsd2si`). -/
theorem C8_integer_validators_narrowing (mn mx : ℤ) (q : ℚ) :
    (q.den ≠ 1 →
      GoValidator.validate (.integerV mn mx) (.jnum q) =
        .error (newValidationError "not an integer") ∧
      GoValidator.validate (.lossyUint64V mn mx) (.jnum q) =
        .error (newValidationError "not an integer")) ∧
    ((2 : ℚ) ^ 63 ≤ q ∨ q < -((2 : ℚ) ^ 63) →
      GoValidator.validate (.integerV mn mx) (.jnum q) =
        .error (newValidationError "not an integer")) ∧
    (q < 0 ∨ (2 : ℚ) ^ 64 ≤ q →
      GoValidator.validate (.lossyUint64V mn mx) (.jnum q) =
        .error (newValidationError "not an integer")) ∧
    (∀ i : ℤ, GoValidator.validate (.integerV mn mx) (.jnum q) = .ok (some (.vInt i)) →
      (i : ℚ) = q) ∧
    (∀ i : ℤ, GoValidator.validate (.lossyUint64V mn mx) (.jnum q) = .ok (some (.vInt i)) →
      (i : ℚ) = q) := by
  refine ⟨?_, ?_, ?_, ?_, ?_⟩
  · intro hd
    constructor
    · refine integerV_check_fail fun he => hd ?_
      rw [← he]
      exact Rat.den_intCast _
    · refine lossyV_check_fail fun he => hd ?_
      rw [← he]
      exact Rat.den_intCast _
  · rintro (hq | hq)
    · refine integerV_check_fail ?_
      rw [cvttsd2si_high hq, f64ofInt_neg_two_pow63]
      intro he
      rw [← he] at hq
      norm_num at hq
    · refine integerV_check_fail ?_
      rw [cvttsd2si_low hq.le, f64ofInt_neg_two_pow63]
      intro he
      rw [← he] at hq
      norm_num at hq
  · rintro (hq | hq)
    · refine lossyV_check_fail ?_
      have h0 : 0 ≤ goUint64ofF64 q := (goUint64ofF64_bounds q).1
      have hz : (0 : ℚ) ≤ (f64ofInt (goUint64ofF64 q) : ℚ) := by
        exact_mod_cast f64ofInt_nonneg h0
      intro he
      rw [he] at hz
      linarith
    · refine lossyV_check_fail ?_
      have hb : ¬q < (2 : ℚ) ^ 63 := by
        push_neg
        nlinarith
      have hq2 : (2 : ℚ) ^ 63 ≤ q - (2 : ℚ) ^ 63 := by nlinarith
      unfold goUint64ofF64
      rw [if_neg hb, cvttsd2si_high hq2]
      norm_num [f64ofInt_zero]
      intro he
      rw [← he] at hq
      norm_num at hq
  · intro i h
    obtain ⟨hc, hv⟩ := integerV_ok_inv h
    have hi : i = cvttsd2si q := by simpa using hv
    set z := f64ofInt (cvttsd2si q) with hzdef
    have htr : ratTrunc q = z := by rw [← hc, ratTrunc_intCast]
    by_cases hcond : -(2 ^ 63) ≤ ratTrunc q ∧ ratTrunc q < 2 ^ 63
    · have hcv : cvttsd2si q = z := by rw [cvttsd2si, if_pos hcond, htr]
      rw [hi, hcv, hc]
    · have hcv : cvttsd2si q = -(2 ^ 63) := by rw [cvttsd2si, if_neg hcond]
      have hzv : z = -(2 ^ 63) := by rw [hzdef, hcv, f64ofInt_neg_two_pow63]
      rw [htr, hzv] at hcond
      exact absurd ⟨by norm_num, by norm_num⟩ hcond
  · intro i h
    obtain ⟨hc, hv⟩ := lossyV_ok_inv h
    have hi : i = goUint64ofF64 q := by simpa using hv
    set u := goUint64ofF64 q with hudef
    set z := f64ofInt u with hzdef
    have hu0 : 0 ≤ u := (goUint64ofF64_bounds q).1
    have hz0 : 0 ≤ z := f64ofInt_nonneg hu0
    rw [hi]
    show (u : ℚ) = q
    by_cases hb : q < (2 : ℚ) ^ 63
    · have htr : ratTrunc q = z := by rw [← hc, ratTrunc_intCast]
      have hzlt : z < 2 ^ 63 := by
        by_contra hzge
        push_neg at hzge
        have hq63 : (2 : ℚ) ^ 63 ≤ q := by
          rw [← hc]
          exact_mod_cast hzge
        linarith
      have hcond : -(2 ^ 63) ≤ ratTrunc q ∧ ratTrunc q < 2 ^ 63 := by
        rw [htr]
        exact ⟨le_trans (by norm_num) hz0, hzlt⟩
      have hcv : cvttsd2si q = z := by rw [cvttsd2si, if_pos hcond, htr]
      have hueq : u = z := by
        rw [hudef, goUint64ofF64, if_pos hb, hcv,
          Int.emod_eq_of_lt hz0 (lt_trans hzlt (by norm_num))]
      rw [hueq, hc]
    · push_neg at hb
      have hz63 : (2 ^ 63 : ℤ) ≤ z := by
        rw [← hc] at hb
        exact_mod_cast hb
      have hq' : q - (2 : ℚ) ^ 63 = ((z - 2 ^ 63 : ℤ) : ℚ) := by
        rw [← hc]
        push_cast
        ring
      have htr2 : ratTrunc (q - (2 : ℚ) ^ 63) = z - 2 ^ 63 := by
        rw [hq', ratTrunc_intCast]
      by_cases hz64 : z < 2 ^ 64
      · have hcond : -(2 ^ 63) ≤ ratTrunc (q - (2 : ℚ) ^ 63) ∧
            ratTrunc (q - (2 : ℚ) ^ 63) < 2 ^ 63 := by
          rw [htr2]
          constructor
          · have h1 : (0 : ℤ) ≤ z - 2 ^ 63 := by omega
            have h2 : -(2 ^ 63 : ℤ) ≤ 0 := by norm_num
            omega
          · have h3 : (2 ^ 64 : ℤ) = 2 ^ 63 + 2 ^ 63 := by norm_num
            omega
        have hcv : cvttsd2si (q - (2 : ℚ) ^ 63) = z - 2 ^ 63 := by
          rw [cvttsd2si, if_pos hcond, htr2]
        have hueq : u = z := by
          rw [hudef, goUint64ofF64, if_neg (not_lt.mpr hb), hcv]
          have hsum : z - 2 ^ 63 + 2 ^ 63 = z := by ring
          rw [hsum, Int.emod_eq_of_lt hz0 hz64]
        rw [hueq, hc]
      · push_neg at hz64
        have hcv : cvttsd2si (q - (2 : ℚ) ^ 63) = -(2 ^ 63) := by
          apply cvttsd2si_high
          rw [hq']
          have hcast : ((2 ^ 64 : ℤ) : ℚ) ≤ ((z : ℤ) : ℚ) := by exact_mod_cast hz64
          push_cast at hcast ⊢
          linarith
        have hueq : u = 0 := by
          rw [hudef, goUint64ofF64, if_neg (not_lt.mpr hb), hcv]
          norm_num
        have hz00 : z = 0 := by rw [hzdef, hueq, f64ofInt_zero]
        rw [hz00] at hz64
        exact absurd hz64 (by norm_num)

/-- Witness for C8: the non-integral float `12.1` is rejected by the
integer validator, `2^63` (beyond `int64`) is rejected, and `-1` is
rejected by the uint64 validator. -/
theorem C8_integer_validators_narrowing_witness :
    GoValidator.validate (.integerV 0 10) (.jnum (121 / 10)) =
      .error (newValidationError "not an integer") ∧
    GoValidator.validate (.integerV (-(2 ^ 63)) (2 ^ 63 - 1)) (.jnum ((2 : ℚ) ^ 63)) =
      .error (newValidationError "not an integer") ∧
    GoValidator.validate (.lossyUint64V 0 (2 ^ 64 - 1)) (.jnum (-1)) =
      .error (newValidationError "not an integer") := by
  refine ⟨?_, ?_, ?_⟩
  · exact ((C8_integer_validators_narrowing 0 10 (121 / 10)).1
      (by norm_num [Rat.den_eq_one_iff])).1
  · exact (C8_integer_validators_narrowing (-(2 ^ 63)) (2 ^ 63 - 1)
      ((2 : ℚ) ^ 63)).2.1 (Or.inl le_rfl)
  · exact (C8_integer_validators_narrowing 0 (2 ^ 64 - 1) (-1)).2.2.1
      (Or.inl (by norm_num))

/-- C7.  `(*TypeMapper).Unmarshal` with a destination that is the nil
interface or whose type is not a pointer aborts with a panic (the
`Except.error` channel — no normal error value is returned); with any
pointer-typed destination the guard passes and the call proceeds to the
body, so it never faults on account of the destination's pointer-ness. -/
theorem C7_unmarshal_destination_guard (reg : List (GoType × TypeNode)) (data : String)
    (ty : GoType) (v : GoValue) (hnp : ty.isPtrType = false) :
    tmUnmarshal reg data .nilDest =
      .error "runtime error: invalid memory address or nil pointer dereference" ∧
    tmUnmarshal reg data (.mk ty v) = .error "cannot unmarshal to non-pointer" ∧
    (∀ ty2 : GoType, ty2.isPtrType = true →
      tmUnmarshal reg data (.mk ty2 v) = tmUnmarshalBody reg data ty2 v) := by
  refine ⟨rfl, ?_, ?_⟩
  · simp [tmUnmarshal, hnp, throw, throwThe, MonadExceptOf.throw]
  · intro ty2 h2
    simp [tmUnmarshal, h2]

/-- Witness for C7: unmarshalling into a non-pointer struct destination
panics, as does the nil destination, while a pointer destination runs
the body. -/
theorem C7_unmarshal_destination_guard_witness :
    tmUnmarshal [] "" (.mk (.structT "InnerThing") (.vStruct [])) =
      .error "cannot unmarshal to non-pointer" ∧
    tmUnmarshal [] "" .nilDest =
      .error "runtime error: invalid memory address or nil pointer dereference" ∧
    tmUnmarshal [] "" (.mk (.ptrT (.structT "InnerThing")) (.vStruct [])) =
      tmUnmarshalBody [] "" (.ptrT (.structT "InnerThing")) (.vStruct []) := by
  obtain ⟨h1, h2, h3⟩ :=
    C7_unmarshal_destination_guard [] "" (.structT "InnerThing") (.vStruct []) rfl
  exact ⟨h2, h1, h3 _ rfl⟩

/-- C6.  For a discriminated-union decode whose discriminator value read
off the parent structure is not in the union's mapping table: when the
value is non-empty, the decode fails with the validation error
`invalid type identifier: '<value>'` — both through the engine's
`variableType` node and through `Discriminator.pickTypeMap`; when the
value is empty, `Discriminator.pickTypeMap` instead produces the softer
`cannot validate, invalid input for '<name>'` using the parent field's
`json` tag when one is available, and the plain `invalid type
identifier` otherwise. -/
theorem C6_discriminator_unknown_value {α : Type} (s key : String)
    (types : List (String × TypeNode)) (mapping : List (String × α))
    (pfs : List (String × GoValue)) (parent : List GoStructField)
    (f : GoStructField) (part : JValue) (dst : GoValue)
    (hpf : alookup pfs s = some (.vStr key))
    (htypes : alookup types key = none)
    (hfind : findStructField parent s = some f)
    (hfv : f.value = .vStr key)
    (hmap : alookup mapping key = none) :
    (key ≠ "" →
      unmarshalNode (.varType s types) (some (.vStruct pfs)) part dst =
        .ok (dst, some (newValidationError ("invalid type identifier: '" ++ key ++ "'"))) ∧
      Discriminator.pickTypeMap s mapping parent =
        .ok (.error (newValidationError ("invalid type identifier: '" ++ key ++ "'")))) ∧
    (key = "" →
      Discriminator.pickTypeMap s mapping parent =
        .ok (.error (newValidationError
          (if parseJsonTag f.jsonTag ≠ ""
           then "cannot validate, invalid input for '" ++ parseJsonTag f.jsonTag ++ "'"
           else "invalid type identifier")))) := by
  have hp : pickTypeMap s types (some (.vStruct pfs)) =
      .ok (.error (newValidationError ("invalid type identifier: '" ++ key ++ "'"))) := by
    simp [pickTypeMap, hpf, htypes, pure, Except.pure]
  constructor
  · intro hne
    constructor
    · simp only [unmarshalNode]
      split
      · rename_i msg heq
        rw [hp] at heq
        exact absurd heq (by simp)
      · rename_i e heq
        rw [hp] at heq
        simp only [Except.ok.injEq, Except.error.injEq] at heq
        rw [← heq]
        rfl
      · rename_i tm heq
        rw [hp] at heq
        exact absurd heq (by simp)
    · simp [Discriminator.pickTypeMap, hfind, hfv, hmap, hne, pure, Except.pure]
  · intro he
    subst he
    by_cases ht : parseJsonTag f.jsonTag = ""
    · simp [Discriminator.pickTypeMap, hfind, hfv, hmap, ht, pure, Except.pure]
    · simp [Discriminator.pickTypeMap, hfind, hfv, hmap, ht, pure, Except.pure]

/-- Witness for C6: the scenario of the spec — discriminator value
`"bar"` unknown to the table gives `invalid type identifier: 'bar'`,
and an empty discriminator with json tag `inner_type` gives the softer
message. -/
theorem C6_discriminator_unknown_value_witness :
    (unmarshalNode (.varType "InnerType" [("foo", .primitiveMap .booleanV)])
        (some (.vStruct [("InnerType", .vStr "bar")])) (.jobj []) (.vIface none) =
      .ok (.vIface none, some (newValidationError "invalid type identifier: 'bar'")) ∧
      Discriminator.pickTypeMap "InnerType" [("foo", 0)]
        [⟨"InnerType", .vStr "bar", "inner_type"⟩] =
        .ok (.error (newValidationError "invalid type identifier: 'bar'"))) ∧
    Discriminator.pickTypeMap "InnerType" [("foo", 0)]
        [⟨"InnerType", .vStr "", "inner_type"⟩] =
      .ok (.error (newValidationError "cannot validate, invalid input for 'inner_type'")) := by
  constructor
  · exact (C6_discriminator_unknown_value "InnerType" "bar"
      [("foo", .primitiveMap .booleanV)] [("foo", 0)]
      [("InnerType", .vStr "bar")] [⟨"InnerType", .vStr "bar", "inner_type"⟩]
      ⟨"InnerType", .vStr "bar", "inner_type"⟩ (.jobj []) (.vIface none)
      (by simp [alookup]) (by simp [alookup]) (by simp [findStructField])
      rfl (by simp [alookup])).1 (by simp)
  · have h := (C6_discriminator_unknown_value "InnerType" ""
      [("foo", .primitiveMap .booleanV)] [("foo", 0)]
      [("InnerType", .vStr "")] [⟨"InnerType", .vStr "", "inner_type"⟩]
      ⟨"InnerType", .vStr "", "inner_type"⟩ (.jobj []) (.vIface none)
      (by simp [alookup]) (by simp [alookup]) (by simp [findStructField])
      rfl (by simp [alookup])).2 rfl
    simpa [parseJsonTag] using h

/-!
## Concrete fixtures (the `InnerThing` mapping of the test suite)
-/

/-- The field descriptors of `InnerThingTypeMap`. -/
def innerThingFields : List MappedField :=
  [.mk "Foo" "foo" none (some (.stringV 1 12)) true false,
   .mk "AnInt" "an_int" none (some (.integerV 0 10)) true false,
   .mk "ABool" "a_bool" none (some .booleanV) true false]

/-- The zero value of the `InnerThing` struct. -/
def innerThingZero : List (String × GoValue) :=
  [("Foo", .vStr ""), ("AnInt", .vInt 0), ("ABool", .vBool false)]

/-- `InnerThingTypeMap`. -/
def InnerThingTypeMap : TypeNode := .structMap innerThingZero innerThingFields

/-- A registry with `InnerThing` registered. -/
def innerThingReg : List (GoType × TypeNode) :=
  [(.structT "InnerThing", InnerThingTypeMap)]

theorem tlookup_structT_keys {reg : List (GoType × TypeNode)} {t : GoType}
    (hkeys : ∀ p ∈ reg, ∃ m, p.1 = GoType.structT m)
    (ht : ∀ m, t ≠ GoType.structT m) : tlookup reg t = none := by
  induction reg with
  | nil => rfl
  | cons p rest ih =>
    obtain ⟨m, hm⟩ := hkeys p (by simp)
    have hne : p.1 ≠ t := by
      rw [hm]
      intro hc
      exact ht m hc.symm
    obtain ⟨pk, pv⟩ := p
    simp only [tlookup]
    rw [if_neg (by simpa using hne)]
    exact ih fun q hq => hkeys q (by simp [hq])

/-- C5 (counterexample): with `InnerThing` registered, `Unmarshal` into
a pointer-to-slice-of-`InnerThing` destination and a JSON array input
panics in `getTypeMap` — it does not decode the array into the slice. -/
theorem C5_pointer_to_slice_counterexample :
    tmUnmarshal innerThingReg "[]"
        (.mk (.ptrT (.sliceT (.structT "InnerThing")))
          (.vSlice (.vStruct innerThingZero) [])) =
      .error "no TypeMap registered for type: []jsonmap_test.InnerThing" := by
  simp [tmUnmarshal, tmUnmarshalBody, getTypeMap, tlookup, innerThingReg,
    GoType.typeString, GoType.isPtrType, bind, Except.bind, throw, throwThe,
    MonadExceptOf.throw]

/-- C5 (amended).  `getTypeMap` transparently resolves a value slice of
a registered type to `SliceOf` of its node — which is what `Marshal` of
a slice uses — but `Unmarshal`'s pointer-to-slice destinations are not
supported: the slice check precedes the pointer dereference, so a
`*[]T` destination dereferences to `[]T`, misses the registry (whose
keys are struct types) and panics; moreover a top-level JSON array is
rejected by the object-typed parse buffer for any pointer-to-struct
destination. -/
theorem C5_getTypeMap_slice_resolution (reg : List (GoType × TypeNode))
    (n : String) (node : TypeNode)
    (hreg : tlookup reg (.structT n) = some node)
    (hkeys : ∀ p ∈ reg, ∃ m, p.1 = GoType.structT m) :
    getTypeMap reg (.sliceT (.structT n)) = .ok (.sliceMap node none none) ∧
    (∀ src, tmMarshal reg (.sliceT (.structT n)) src =
      marshalNode (.sliceMap node none none) none src) ∧
    getTypeMap reg (.ptrT (.sliceT (.structT n))) =
      .error ("no TypeMap registered for type: " ++
        (GoType.sliceT (.structT n)).typeString) ∧
    (∀ data v, tmUnmarshal reg data
        (.mk (.ptrT (.sliceT (.structT n))) v) =
      .error ("no TypeMap registered for type: " ++
        (GoType.sliceT (.structT n)).typeString)) ∧
    (∀ data v xs, parseJson data = some (.jarr xs) →
      tmUnmarshal reg data (.mk (.ptrT (.structT n)) v) =
        .ok (v, some (.parseErr
          (newValidationError "json: cannot unmarshal, not an object")))) := by
  have hmiss : tlookup reg (.sliceT (.structT n)) = none :=
    tlookup_structT_keys hkeys (fun m => by simp)
  have h1 : getTypeMap reg (.sliceT (.structT n)) = .ok (.sliceMap node none none) := by
    simp [getTypeMap, hreg, pure, Except.pure]
  refine ⟨h1, ?_, ?_, ?_, ?_⟩
  · intro src
    simp [tmMarshal, h1, bind, Except.bind]
  · simp [getTypeMap, hmiss, throw, throwThe, MonadExceptOf.throw]
  · intro data v
    simp [tmUnmarshal, tmUnmarshalBody, GoType.isPtrType, getTypeMap, hmiss,
      bind, Except.bind, throw, throwThe, MonadExceptOf.throw]
  · intro data v xs hparse
    simp [tmUnmarshal, tmUnmarshalBody, GoType.isPtrType, getTypeMap, hreg,
      bind, Except.bind, pure, Except.pure, parseTopObject, hparse]

/-- Witness for the amended C5, at the `InnerThing` registry. -/
theorem C5_getTypeMap_slice_resolution_witness :
    getTypeMap innerThingReg (.sliceT (.structT "InnerThing")) =
      .ok (.sliceMap InnerThingTypeMap none none) ∧
    tmUnmarshal innerThingReg "[]"
        (.mk (.ptrT (.structT "InnerThing")) (.vStruct innerThingZero)) =
      .ok (.vStruct innerThingZero, some (.parseErr
        (newValidationError "json: cannot unmarshal, not an object"))) := by
  obtain ⟨h1, _h2, _h3, _h4, h5⟩ := C5_getTypeMap_slice_resolution innerThingReg
    "InnerThing" InnerThingTypeMap (by simp [innerThingReg, tlookup])
    (by intro p hp; simp [innerThingReg] at hp; exact ⟨"InnerThing", by simp [hp]⟩)
  exact ⟨h1, h5 "[]" (.vStruct innerThingZero) [] rfl⟩

/-!
## Properties of the slice decode (`SliceMap.Unmarshal`)
-/

theorem unmarshalElems_mem (c : TypeNode) (p : Option GoValue) (z : GoValue) :
    ∀ (data : List JValue) (i0 : ℕ) (ds : List GoValue) (errs : List FieldError),
    unmarshalElems c p z data i0 = .ok (ds, errs) →
    ∀ (j : ℕ) (hj : j < data.length) (gv : GoValue) (e : FieldError),
    unmarshalNode c p (data.get ⟨j, hj⟩) z = .ok (gv, some e) →
    e.setField (toString (i0 + j)) ∈ errs := by
  intro data
  induction data with
  | nil => intro i0 ds errs h j hj; exact absurd hj (by simp)
  | cons x rest ih =>
    intro i0 ds errs h j hj gv e he
    rw [unmarshalElems] at h
    cases hr : unmarshalNode c p x z with
    | error msg => rw [hr] at h; simp [bind, Except.bind] at h
    | ok r =>
      rw [hr] at h
      cases hrr : unmarshalElems c p z rest (i0 + 1) with
      | error msg => rw [hrr] at h; simp [bind, Except.bind] at h
      | ok rr =>
        rw [hrr] at h
        simp only [bind, Except.bind] at h
        match j, hj with
        | 0, hj =>
          simp only [List.get] at he
          rw [he] at hr
          have hre : r = (gv, some e) := (Except.ok.inj hr).symm
          rw [hre] at h
          simp [pure, Except.pure] at h
          rw [← h.2]
          simp
        | Nat.succ jp, hj =>
          simp only [List.get] at he
          have hmem := ih (i0 + 1) rr.1 rr.2 (by rw [hrr]) jp (by simpa using hj) gv e he
          have harith : i0 + 1 + jp = i0 + (jp + 1) := by omega
          rw [harith] at hmem
          cases hre : r.2 with
          | some e2 =>
            rw [hre] at h
            simp [pure, Except.pure] at h
            rw [← h.2]
            simp [hmem]
          | none =>
            rw [hre] at h
            simp [pure, Except.pure] at h
            rw [← h.2]
            exact hmem

theorem unmarshalElems_all_ok (c : TypeNode) (p : Option GoValue) (z : GoValue) :
    ∀ (data : List JValue) (i0 : ℕ) (ds : List GoValue),
    unmarshalElems c p z data i0 = .ok (ds, []) →
    ds.length = data.length ∧
    ∀ (j : ℕ) (hj : j < data.length) (hj2 : j < ds.length),
      unmarshalNode c p (data.get ⟨j, hj⟩) z =
        .ok (ds.get ⟨j, hj2⟩, none) := by
  intro data
  induction data with
  | nil =>
    intro i0 ds h
    rw [unmarshalElems] at h
    simp [pure, Except.pure] at h
    subst h
    exact ⟨rfl, fun j hj => absurd hj (by simp)⟩
  | cons x rest ih =>
    intro i0 ds h
    rw [unmarshalElems] at h
    cases hr : unmarshalNode c p x z with
    | error msg => rw [hr] at h; simp [bind, Except.bind] at h
    | ok r =>
      rw [hr] at h
      cases hrr : unmarshalElems c p z rest (i0 + 1) with
      | error msg => rw [hrr] at h; simp [bind, Except.bind] at h
      | ok rr =>
        rw [hrr] at h
        simp only [bind, Except.bind] at h
        cases hre : r.2 with
        | some e2 =>
          rw [hre] at h
          simp [pure, Except.pure] at h
        | none =>
          rw [hre] at h
          simp [pure, Except.pure] at h
          obtain ⟨hds, herrs⟩ := h
          have hrr2 : rr = (rr.1, []) := by rw [← herrs]
          obtain ⟨hlen, hall⟩ := ih (i0 + 1) rr.1 (by rw [hrr, hrr2])
          subst hds
          refine ⟨by simp [hlen], ?_⟩
          intro j hj hj2
          match j, hj, hj2 with
          | 0, hj, hj2 =>
            simp only [List.get]
            rw [hr]
            rw [show r = (r.1, r.2) from rfl, hre]
          | Nat.succ jp, hj, hj2 =>
            simp only [List.get]
            exact hall jp (by simpa using hj) (by simpa using hj2)

/-- C2 (amended).  For a slice decode over a JSON list within the
configured length bounds: per-element errors are keyed by the element's
zero-based decimal index and do not stop later elements (every failing
element's error is in the merged list); on any collected error the
decode fails with the merged error tree and the destination is left
unchanged (no partial commit); on full success the destination becomes
its pre-call contents followed by the decoded elements in input order —
exactly the decoded list when the destination slice starts empty. -/
theorem C2_slice_decode (c : TypeNode) (mn mx : Option ℤ) (p : Option GoValue)
    (z : GoValue) (elems : List GoValue) (data : List JValue)
    (ds : List GoValue) (errs : List FieldError)
    (hrange : validateSliceWithinRange mn mx data.length = none)
    (helems : unmarshalElems c (some (.vSlice z elems)) z data 0 = .ok (ds, errs)) :
    (errs = [] →
      unmarshalNode (.sliceMap c mn mx) p (.jarr data) (.vSlice z elems) =
        .ok (.vSlice z (elems ++ ds), none)) ∧
    (errs ≠ [] →
      unmarshalNode (.sliceMap c mn mx) p (.jarr data) (.vSlice z elems) =
        .ok (.vSlice z elems, some (.mk "" "" errs))) ∧
    (∀ (j : ℕ) (hj : j < data.length) (gv : GoValue) (e : FieldError),
      unmarshalNode c (some (.vSlice z elems)) (data.get ⟨j, hj⟩) z = .ok (gv, some e) →
      e.setField (toString j) ∈ errs) ∧
    (errs = [] → ds.length = data.length ∧
      ∀ (j : ℕ) (hj : j < data.length) (hj2 : j < ds.length),
        unmarshalNode c (some (.vSlice z elems)) (data.get ⟨j, hj⟩) z =
          .ok (ds.get ⟨j, hj2⟩, none)) := by
  refine ⟨?_, ?_, ?_, ?_⟩
  · intro hnil
    rw [unmarshalNode, hrange]
    rw [helems]
    subst hnil
    simp [bind, Except.bind, pure, Except.pure, wrapFieldErrors]
  · intro hne
    rw [unmarshalNode, hrange]
    rw [helems]
    simp only [bind, Except.bind]
    cases errs with
    | nil => exact absurd rfl hne
    | cons e0 erest => simp [wrapFieldErrors, pure, Except.pure]
  · intro j hj gv e he
    have := unmarshalElems_mem c (some (.vSlice z elems)) z data 0 ds errs helems j hj gv e he
    simpa using this
  · intro hnil
    subst hnil
    exact unmarshalElems_all_ok c (some (.vSlice z elems)) z data 0 ds helems

/-- C2 (counterexample to the claim as stated): a slice decode into a
destination that already holds an element appends — the destination
does not become exactly the decoded list. -/
theorem C2_slice_append_counterexample :
    unmarshalNode (.sliceMap (.primitiveMap .booleanV) none none) none
        (.jarr [.jbool false]) (.vSlice (.vBool false) [.vBool true]) =
      .ok (.vSlice (.vBool false) [.vBool true, .vBool false], none) ∧
    GoValue.vSlice (.vBool false) [.vBool true, .vBool false] ≠
      .vSlice (.vBool false) [.vBool false] := by
  constructor
  · simp [unmarshalNode, unmarshalElems, validateSliceWithinRange,
      GoValidator.validate, wrapFieldErrors, bind, Except.bind, pure, Except.pure]
  · simp

/-- Witness for the amended C2 at a concrete decode: one failing and
one succeeding element; the error is keyed `"0"`, the decode fails with
the merged tree and the destination is unchanged. -/
theorem C2_slice_decode_witness :
    unmarshalNode (.sliceMap (.primitiveMap .booleanV) none none) none
        (.jarr [.jstr "x", .jbool true]) (.vSlice (.vBool false) []) =
      .ok (.vSlice (.vBool false) [],
        some (.mk "" "" [.mk "0" "not a boolean" []])) ∧
    FieldError.mk "0" "not a boolean" [] ∈ [FieldError.mk "0" "not a boolean" []] := by
  have ht : toString (0 : ℕ) = "0" := rfl
  have helems : unmarshalElems (.primitiveMap .booleanV)
      (some (.vSlice (.vBool false) [])) (.vBool false)
      [.jstr "x", .jbool true] 0 =
      .ok ([.vBool true], [.mk "0" "not a boolean" []]) := by
    simp [unmarshalElems, unmarshalNode, GoValidator.validate, ht,
      newValidationError, FieldError.setField, bind, Except.bind, pure, Except.pure]
  obtain ⟨_h1, h2, h3, _h4⟩ := C2_slice_decode (.primitiveMap .booleanV) none none
    none (.vBool false) [] [.jstr "x", .jbool true] [.vBool true]
    [.mk "0" "not a boolean" []] rfl helems
  refine ⟨h2 (by simp), ?_⟩
  have hm := h3 0 (by simp) (.vBool false) (.mk "" "not a boolean" [])
    (by simp [unmarshalNode, GoValidator.validate, newValidationError, pure, Except.pure])
  rw [ht] at hm
  simpa [FieldError.setField] using hm

/-!
## Properties of the map decode (`MapMap.Unmarshal`)
-/

theorem amapSet_mem_self {α : Type} (l : List (String × α)) (k : String) (v : α) :
    (k, v) ∈ amapSet l k v := by
  induction l with
  | nil => simp [amapSet]
  | cons p rest ih =>
    obtain ⟨pk, pv⟩ := p
    by_cases hk : pk = k
    · simp [amapSet, hk]
    · simp only [amapSet, if_neg hk]
      exact List.mem_cons_of_mem _ ih

theorem amapSet_mem_preserve {α : Type} {l : List (String × α)} {k k2 : String}
    {v : α} (v2 : α) (h : (k, v) ∈ l) (hne : k ≠ k2) : (k, v) ∈ amapSet l k2 v2 := by
  induction l with
  | nil => simp at h
  | cons p rest ih =>
    obtain ⟨pk, pv⟩ := p
    rcases List.mem_cons.mp h with he | hm
    · injection he with he1 he2
      subst he1
      subst he2
      simp only [amapSet, if_neg hne]
      simp
    · by_cases hk : pk = k2
      · simp only [amapSet, if_pos hk]
        exact List.mem_cons_of_mem _ hm
      · simp only [amapSet, if_neg hk]
        exact List.mem_cons_of_mem _ (ih hm)

theorem unmarshalEntries_errs_mono (c : TypeNode) (z : GoValue) :
    ∀ (data : List (String × JValue)) (cur0 : List (String × GoValue))
      (errs0 : List FieldError) (cur : List (String × GoValue)) (errs : List FieldError),
    unmarshalEntries c z data cur0 errs0 = .ok (cur, errs) →
    ∀ x ∈ errs0, x ∈ errs := by
  intro data
  induction data with
  | nil =>
    intro cur0 errs0 cur errs h x hx
    rw [unmarshalEntries] at h
    simp [pure, Except.pure] at h
    rw [← h.2]
    exact hx
  | cons p rest ih =>
    intro cur0 errs0 cur errs h x hx
    obtain ⟨k, v⟩ := p
    rw [unmarshalEntries] at h
    cases hr : unmarshalNode c (some (.vMap z cur0)) v z with
    | error msg => rw [hr] at h; simp [bind, Except.bind] at h
    | ok r =>
      rw [hr] at h
      simp only [bind, Except.bind] at h
      cases hre : r.2 with
      | some e =>
        rw [hre] at h
        exact ih cur0 (errs0 ++ [e.setField k]) cur errs h x (by simp [hx])
      | none =>
        rw [hre] at h
        exact ih (amapSet cur0 k r.1) errs0 cur errs h x hx

theorem unmarshalEntries_preserve (c : TypeNode) (z : GoValue) :
    ∀ (data : List (String × JValue)) (cur0 : List (String × GoValue))
      (errs0 : List FieldError) (cur : List (String × GoValue)) (errs : List FieldError)
      (k : String) (v : GoValue),
    unmarshalEntries c z data cur0 errs0 = .ok (cur, errs) →
    (k, v) ∈ cur0 → (∀ p ∈ data, p.1 ≠ k) → (k, v) ∈ cur := by
  intro data
  induction data with
  | nil =>
    intro cur0 errs0 cur errs k v h hm _
    rw [unmarshalEntries] at h
    simp [pure, Except.pure] at h
    rw [← h.1]
    exact hm
  | cons p rest ih =>
    intro cur0 errs0 cur errs k v h hm hk
    obtain ⟨pk, pv⟩ := p
    rw [unmarshalEntries] at h
    cases hr : unmarshalNode c (some (.vMap z cur0)) pv z with
    | error msg => rw [hr] at h; simp [bind, Except.bind] at h
    | ok r =>
      rw [hr] at h
      simp only [bind, Except.bind] at h
      cases hre : r.2 with
      | some e =>
        rw [hre] at h
        exact ih cur0 _ cur errs k v h hm fun q hq => hk q (by simp [hq])
      | none =>
        rw [hre] at h
        refine ih (amapSet cur0 pk r.1) errs0 cur errs k v h ?_
          fun q hq => hk q (by simp [hq])
        exact amapSet_mem_preserve r.1 hm fun hc => hk (pk, pv) (by simp) (by rw [hc])

theorem unmarshalEntries_outcomes (c : TypeNode) (z : GoValue) :
    ∀ (data : List (String × JValue)) (cur0 : List (String × GoValue))
      (errs0 : List FieldError) (cur : List (String × GoValue)) (errs : List FieldError),
    unmarshalEntries c z data cur0 errs0 = .ok (cur, errs) →
    (data.map Prod.fst).Nodup →
    ∀ (j : ℕ) (hj : j < data.length),
      ∃ (pstate : List (String × GoValue)) (r : GoValue × Option FieldError),
        unmarshalNode c (some (.vMap z pstate)) (data.get ⟨j, hj⟩).2 z = .ok r ∧
        (r.2 = none → ((data.get ⟨j, hj⟩).1, r.1) ∈ cur) ∧
        (∀ e, r.2 = some e → e.setField (data.get ⟨j, hj⟩).1 ∈ errs) := by
  intro data
  induction data with
  | nil => intro cur0 errs0 cur errs h _ j hj; exact absurd hj (by simp)
  | cons p rest ih =>
    intro cur0 errs0 cur errs h hnd j hj
    obtain ⟨k, v⟩ := p
    rw [unmarshalEntries] at h
    cases hr : unmarshalNode c (some (.vMap z cur0)) v z with
    | error msg => rw [hr] at h; simp [bind, Except.bind] at h
    | ok r =>
      rw [hr] at h
      simp only [bind, Except.bind] at h
      have hndrest : (rest.map Prod.fst).Nodup := by
        simpa using hnd.of_cons
      match j, hj with
      | 0, hj =>
        refine ⟨cur0, r, hr, ?_, ?_⟩
        · intro hre
          rw [hre] at h
          have hself : (k, r.1) ∈ amapSet cur0 k r.1 := amapSet_mem_self _ _ _
          have hk : ∀ q ∈ rest, q.1 ≠ k := by
            intro q hq hc
            have hnotin : k ∉ rest.map Prod.fst := by
              have h2 := hnd
              simp only [List.map_cons, List.nodup_cons] at h2
              exact h2.1
            exact hnotin (hc ▸ List.mem_map_of_mem Prod.fst hq)
          exact unmarshalEntries_preserve c z rest _ _ cur errs k r.1 h hself hk
        · intro e hre
          rw [hre] at h
          exact unmarshalEntries_errs_mono c z rest _ _ cur errs h
            (e.setField k) (by simp)
      | Nat.succ jp, hj =>
        cases hre : r.2 with
        | some e =>
          rw [hre] at h
          exact ih cur0 _ cur errs h hndrest jp (by simpa using hj)
        | none =>
          rw [hre] at h
          exact ih (amapSet cur0 k r.1) errs0 cur errs h hndrest jp (by simpa using hj)

/-- C10.  For a map decode over a string-keyed JSON object: the
destination map is replaced by a freshly allocated map before any entry
is decoded (the result does not depend on the prior contents); each
entry decodes into a fresh element slot against the in-progress map,
successes being inserted under their key and failures collecting
key-keyed errors; and when any entry fails, the error tree is returned
while the destination keeps the fresh map already populated with every
successfully decoded key — map decode is not atomic on error. -/
theorem C10_map_decode_not_atomic (c : TypeNode) (z : GoValue)
    (old : List (String × GoValue)) (p : Option GoValue)
    (data : List (String × JValue)) (cur : List (String × GoValue))
    (errs : List FieldError)
    (hrun : unmarshalEntries c z data [] [] = .ok (cur, errs))
    (hnodup : (data.map Prod.fst).Nodup) :
    (∀ old2, unmarshalNode (.mapMap c) p (.jobj data) (.vMap z old) =
      unmarshalNode (.mapMap c) p (.jobj data) (.vMap z old2)) ∧
    unmarshalNode (.mapMap c) p (.jobj data) (.vMap z old) =
      .ok (.vMap z cur, wrapFieldErrors errs) ∧
    (errs ≠ [] → ∃ e, wrapFieldErrors errs = some e ∧ e.fieldErrors = errs) ∧
    (∀ (j : ℕ) (hj : j < data.length),
      ∃ (pstate : List (String × GoValue)) (r : GoValue × Option FieldError),
        unmarshalNode c (some (.vMap z pstate)) (data.get ⟨j, hj⟩).2 z = .ok r ∧
        (r.2 = none → ((data.get ⟨j, hj⟩).1, r.1) ∈ cur) ∧
        (∀ e, r.2 = some e → e.setField (data.get ⟨j, hj⟩).1 ∈ errs)) := by
  refine ⟨?_, ?_, ?_, ?_⟩
  · intro old2
    rw [unmarshalNode, unmarshalNode]
  · rw [unmarshalNode]
    rw [hrun]
    simp [bind, Except.bind, pure, Except.pure]
  · intro hne
    cases errs with
    | nil => exact absurd rfl hne
    | cons e0 er => exact ⟨_, rfl, rfl⟩
  · exact unmarshalEntries_outcomes c z data [] [] cur errs hrun hnodup

/-- Witness for C10: keys `"a"` (failing) and `"b"` (succeeding); the
decode returns the key-keyed error tree while the destination is the
fresh map holding `"b"` — regardless of the stale prior contents. -/
theorem C10_map_decode_not_atomic_witness :
    unmarshalNode (.mapMap (.primitiveMap .booleanV)) none
        (.jobj [("a", .jstr "x"), ("b", .jbool true)])
        (.vMap (.vBool false) [("stale", .vBool true)]) =
      .ok (.vMap (.vBool false) [("b", .vBool true)],
        some (.mk "" "" [.mk "a" "not a boolean" []])) ∧
    ("b", GoValue.vBool true) ∈ [("b", GoValue.vBool true)] := by
  have hrun : unmarshalEntries (.primitiveMap .booleanV) (.vBool false)
      [("a", .jstr "x"), ("b", .jbool true)] [] [] =
      .ok ([("b", .vBool true)], [.mk "a" "not a boolean" []]) := by
    simp [unmarshalEntries, unmarshalNode, GoValidator.validate, amapSet,
      newValidationError, FieldError.setField, bind, Except.bind, pure, Except.pure]
  obtain ⟨_h1, h2, _h3, _h4⟩ := C10_map_decode_not_atomic (.primitiveMap .booleanV)
    (.vBool false) [("stale", .vBool true)] none
    [("a", .jstr "x"), ("b", .jbool true)] [("b", .vBool true)]
    [.mk "a" "not a boolean" []] hrun (by simp)
  refine ⟨?_, by simp⟩
  rw [h2]
  rfl

theorem unmarshalFields_errs_mono :
    ∀ (flds : List MappedField) (data : List (String × JValue))
      (cur0 : List (String × GoValue)) (errs0 : List FieldError)
      (cur : List (String × GoValue)) (errs : List FieldError),
    unmarshalFields flds data cur0 errs0 = .ok (cur, errs) →
    ∀ x ∈ errs0, x ∈ errs := by
  intro flds
  induction flds with
  | nil =>
    intro data cur0 errs0 cur errs h x hx
    rw [unmarshalFields] at h
    simp [pure, Except.pure] at h
    rw [← h.2]
    exact hx
  | cons f rest ih =>
    intro data cur0 errs0 cur errs h x hx
    rw [unmarshalFields] at h
    simp only [bind, Except.bind] at h
    split at h
    · exact ih _ _ _ _ _ h x hx
    · split at h
      · simp [throw, throwThe, MonadExceptOf.throw] at h
      · split at h
        · split at h
          · exact ih _ _ _ _ _ h x hx
          · exact ih _ _ _ _ _ h x (by simp [hx])
        · split at h
          · exact ih _ _ _ _ _ h x hx
          · split at h
            · split at h
              · simp at h
              · split at h
                · exact ih _ _ _ _ _ h x hx
                · exact ih _ _ _ _ _ h x (by simp [hx])
            · split at h
              · split at h
                · exact ih _ _ _ _ _ h x hx
                · simp [throw, throwThe, MonadExceptOf.throw] at h
                · exact ih _ _ _ _ _ h x (by simp [hx])
              · simp [throw, throwThe, MonadExceptOf.throw] at h

theorem unmarshalFields_missing_required :
    ∀ (flds : List MappedField) (data : List (String × JValue))
      (cur0 : List (String × GoValue)) (errs0 : List FieldError)
      (cur : List (String × GoValue)) (errs : List FieldError),
    unmarshalFields flds data cur0 errs0 = .ok (cur, errs) →
    ∀ f ∈ flds, f.readOnly = false → f.optional = false →
      alookup data f.jsonFieldName = none →
      newValidationErrorWithField f.jsonFieldName "missing required field" ∈ errs := by
  intro flds
  induction flds with
  | nil => intro data cur0 errs0 cur errs h f hf; exact absurd hf (by simp)
  | cons f0 rest ih =>
    intro data cur0 errs0 cur errs h f hf hro hopt hmiss
    rw [unmarshalFields] at h
    simp only [bind, Except.bind] at h
    rcases List.mem_cons.mp hf with rfl | hfr
    · split at h
      · rename_i hq; simp [hq] at hro
      · split at h
        · simp [throw, throwThe, MonadExceptOf.throw] at h
        · split at h
          · split at h
            · rename_i hq; simp [hq] at hopt
            · exact unmarshalFields_errs_mono rest data cur0 _ cur errs h _ (by simp)
          · rename_i val hq
            rw [hmiss] at hq
            simp at hq
    · split at h
      · exact ih _ _ _ _ _ h f hfr hro hopt hmiss
      · split at h
        · simp [throw, throwThe, MonadExceptOf.throw] at h
        · split at h
          · split at h
            · exact ih _ _ _ _ _ h f hfr hro hopt hmiss
            · exact ih _ _ _ _ _ h f hfr hro hopt hmiss
          · split at h
            · exact ih _ _ _ _ _ h f hfr hro hopt hmiss
            · split at h
              · split at h
                · simp at h
                · split at h
                  · exact ih _ _ _ _ _ h f hfr hro hopt hmiss
                  · exact ih _ _ _ _ _ h f hfr hro hopt hmiss
              · split at h
                · split at h
                  · exact ih _ _ _ _ _ h f hfr hro hopt hmiss
                  · simp [throw, throwThe, MonadExceptOf.throw] at h
                  · exact ih _ _ _ _ _ h f hfr hro hopt hmiss
                · simp [throw, throwThe, MonadExceptOf.throw] at h

theorem unmarshalFields_validator_failure :
    ∀ (flds : List MappedField) (data : List (String × JValue))
      (cur0 : List (String × GoValue)) (errs0 : List FieldError)
      (cur : List (String × GoValue)) (errs : List FieldError),
    unmarshalFields flds data cur0 errs0 = .ok (cur, errs) →
    ∀ f ∈ flds, f.readOnly = false →
      ∀ val, alookup data f.jsonFieldName = some val →
      (val.isNull && f.optional) = false →
      f.contains = none →
      ∀ v, f.validator = some v →
      ∀ e, v.validate val = .error e →
      e.setField f.jsonFieldName ∈ errs := by
  intro flds
  induction flds with
  | nil => intro data cur0 errs0 cur errs h f hf; exact absurd hf (by simp)
  | cons f0 rest ih =>
    intro data cur0 errs0 cur errs h f hf hro val hval hnn hcont v hv e herr
    rw [unmarshalFields] at h
    simp only [bind, Except.bind] at h
    rcases List.mem_cons.mp hf with rfl | hfr
    · split at h
      · rename_i hq; simp [hq] at hro
      · split at h
        · simp [throw, throwThe, MonadExceptOf.throw] at h
        · split at h
          · rename_i hq
            rw [hval] at hq
            simp at hq
          · rename_i val2 hq
            rw [hval] at hq
            have hvv : val2 = val := (Option.some.inj hq).symm
            subst hvv
            split at h
            · rename_i hq2; simp [hq2] at hnn
            · split at h
              · rename_i node hq2
                rw [hcont] at hq2
                simp at hq2
              · split at h
                · rename_i v2 hq2
                  rw [hv] at hq2
                  have hvv2 : v2 = v := (Option.some.inj hq2).symm
                  subst hvv2
                  split at h
                  · rename_i gv hq3
                    rw [herr] at hq3
                    simp at hq3
                  · simp [throw, throwThe, MonadExceptOf.throw] at h
                  · rename_i e2 hq3
                    rw [herr] at hq3
                    have hee : e2 = e := (Except.error.inj hq3).symm
                    subst hee
                    exact unmarshalFields_errs_mono rest data cur0 _ cur errs h _ (by simp)
                · rename_i hq2
                  rw [hv] at hq2
                  simp at hq2
    · split at h
      · exact ih _ _ _ _ _ h f hfr hro val hval hnn hcont v hv e herr
      · split at h
        · simp [throw, throwThe, MonadExceptOf.throw] at h
        · split at h
          · split at h
            · exact ih _ _ _ _ _ h f hfr hro val hval hnn hcont v hv e herr
            · exact ih _ _ _ _ _ h f hfr hro val hval hnn hcont v hv e herr
          · split at h
            · exact ih _ _ _ _ _ h f hfr hro val hval hnn hcont v hv e herr
            · split at h
              · split at h
                · simp at h
                · split at h
                  · exact ih _ _ _ _ _ h f hfr hro val hval hnn hcont v hv e herr
                  · exact ih _ _ _ _ _ h f hfr hro val hval hnn hcont v hv e herr
              · split at h
                · split at h
                  · exact ih _ _ _ _ _ h f hfr hro val hval hnn hcont v hv e herr
                  · simp [throw, throwThe, MonadExceptOf.throw] at h
                  · exact ih _ _ _ _ _ h f hfr hro val hval hnn hcont v hv e herr
                · simp [throw, throwThe, MonadExceptOf.throw] at h

/-- C1.  For a struct decode over an object input: the decode is exactly
the field loop followed by the error wrap, so it succeeds if and only if
zero field errors were accumulated, and otherwise the single returned
error carries the complete accumulated list; every required
(non-optional, non-read-only) field whose external key is absent from
the input contributes a `missing required field` error keyed by its
external name without aborting the loop, and every sibling field whose
validator rejects its input contributes its own error keyed by its
external name in the same call. -/
theorem C1_struct_decode_error_accumulation
    (u : List (String × GoValue)) (flds : List MappedField) (p : Option GoValue)
    (data : List (String × JValue)) (fs : List (String × GoValue))
    (cur : List (String × GoValue)) (errs : List FieldError)
    (hrun : unmarshalFields flds data fs [] = .ok (cur, errs)) :
    unmarshalNode (.structMap u flds) p (.jobj data) (.vStruct fs) =
      .ok (.vStruct cur, wrapFieldErrors errs) ∧
    (wrapFieldErrors errs = none ↔ errs = []) ∧
    (errs ≠ [] → ∃ e, wrapFieldErrors errs = some e ∧ e.fieldErrors = errs) ∧
    (∀ f ∈ flds, f.readOnly = false → f.optional = false →
      alookup data f.jsonFieldName = none →
      newValidationErrorWithField f.jsonFieldName "missing required field" ∈ errs) ∧
    (∀ f ∈ flds, f.readOnly = false →
      ∀ val, alookup data f.jsonFieldName = some val →
      (val.isNull && f.optional) = false → f.contains = none →
      ∀ v, f.validator = some v → ∀ e, v.validate val = .error e →
      e.setField f.jsonFieldName ∈ errs) := by
  refine ⟨?_, ?_, ?_, ?_, ?_⟩
  · rw [unmarshalNode]
    rw [hrun]
    simp [bind, Except.bind, pure, Except.pure]
  · cases errs with
    | nil => simp [wrapFieldErrors]
    | cons e0 er => simp [wrapFieldErrors]
  · intro hne
    cases errs with
    | nil => exact absurd rfl hne
    | cons e0 er => exact ⟨_, rfl, rfl⟩
  · exact unmarshalFields_missing_required flds data fs [] cur errs hrun
  · exact unmarshalFields_validator_failure flds data fs [] cur errs hrun

/-- Witness for C1: field `foo` is required but absent and field
`a_bool` fails its boolean validator; the one call returns the error
tree holding both errors, each keyed by its external name. -/
theorem C1_struct_decode_error_accumulation_witness :
    unmarshalNode
        (.structMap [("Foo", .vStr ""), ("ABool", .vBool false)]
          [.mk "Foo" "foo" none (some (.stringV 1 12)) false false,
           .mk "ABool" "a_bool" none (some .booleanV) false false]) none
        (.jobj [("a_bool", .jstr "zzz")])
        (.vStruct [("Foo", .vStr ""), ("ABool", .vBool false)]) =
      .ok (.vStruct [("Foo", .vStr ""), ("ABool", .vBool false)],
        some (.mk "" "" [.mk "foo" "missing required field" [],
                         .mk "a_bool" "not a boolean" []])) ∧
    FieldError.mk "foo" "missing required field" [] ∈
      [FieldError.mk "foo" "missing required field" [],
       FieldError.mk "a_bool" "not a boolean" []] ∧
    FieldError.mk "a_bool" "not a boolean" [] ∈
      [FieldError.mk "foo" "missing required field" [],
       FieldError.mk "a_bool" "not a boolean" []] := by
  have hrun : unmarshalFields
      [.mk "Foo" "foo" none (some (.stringV 1 12)) false false,
       .mk "ABool" "a_bool" none (some .booleanV) false false]
      [("a_bool", .jstr "zzz")]
      [("Foo", .vStr ""), ("ABool", .vBool false)] [] =
      .ok ([("Foo", .vStr ""), ("ABool", .vBool false)],
        [.mk "foo" "missing required field" [],
         .mk "a_bool" "not a boolean" []]) := by
    simp [unmarshalFields, GoValidator.validate, alookup, aset, JValue.isNull,
      newValidationErrorWithField, newValidationError, FieldError.setField,
      MappedField.readOnly, MappedField.optional, MappedField.contains,
      MappedField.validator, MappedField.structFieldName, MappedField.jsonFieldName,
      bind, Except.bind, pure, Except.pure]
  obtain ⟨h1, _h2, _h3, h4, h5⟩ := C1_struct_decode_error_accumulation
    [("Foo", .vStr ""), ("ABool", .vBool false)]
    [.mk "Foo" "foo" none (some (.stringV 1 12)) false false,
     .mk "ABool" "a_bool" none (some .booleanV) false false] none
    [("a_bool", .jstr "zzz")]
    [("Foo", .vStr ""), ("ABool", .vBool false)]
    [("Foo", .vStr ""), ("ABool", .vBool false)]
    [.mk "foo" "missing required field" [], .mk "a_bool" "not a boolean" []] hrun
  refine ⟨by rw [h1]; rfl, ?_, ?_⟩
  · have := h4 (.mk "Foo" "foo" none (some (.stringV 1 12)) false false)
      (by simp) rfl rfl (by simp [alookup, MappedField.jsonFieldName])
    simpa [newValidationErrorWithField, MappedField.jsonFieldName] using this
  · have := h5 (.mk "ABool" "a_bool" none (some .booleanV) false false)
      (by simp) rfl (.jstr "zzz") (by simp [alookup, MappedField.jsonFieldName])
      rfl rfl .booleanV rfl (newValidationError "not a boolean")
      (by simp [GoValidator.validate])
    simpa [newValidationError, FieldError.setField, MappedField.jsonFieldName] using this

theorem strFoldlAppend (l : List String) : ∀ (a b : String),
    l.foldl (fun r s => r ++ s) (a ++ b) = a ++ l.foldl (fun r s => r ++ s) b := by
  induction l with
  | nil => intro a b; rfl
  | cons x xs ih =>
    intro a b
    simp only [List.foldl_cons, String.append_assoc]
    exact ih a (b ++ x)

theorem joinCons (s : String) (l : List String) :
    String.join (s :: l) = s ++ String.join l := by
  show l.foldl (fun r s => r ++ s) ("" ++ s) = s ++ l.foldl (fun r s => r ++ s) ""
  rw [show ("" ++ s) = (s ++ "") by simp]
  exact strFoldlAppend l s ""

/-- The default descriptor used with `List.getD` in index-wise statements
about the field loop. -/
def dfltField : MappedField := .mk "" "" none none false false

theorem marshalFields_pieces :
    ∀ (flds : List MappedField) (parent : GoValue) (fs : List (String × GoValue))
      (i n : ℕ) (buf buf' : String),
    marshalFields flds parent fs i n buf = .ok (.ok buf') →
    ∃ pieces : List String,
      pieces.length = flds.length ∧
      buf' = buf ++ String.join pieces ∧
      ∀ j, j < flds.length → ∃ valbuf,
        pieces.getD j "" =
          renderString ((flds.getD j dfltField).jsonFieldName) ++ ":" ++ valbuf ++
            (if i + j ≠ n - 1 then "," else "") := by
  intro flds
  induction flds with
  | nil =>
    intro parent fs i n buf buf' h
    rw [marshalFields] at h
    simp [pure, Except.pure] at h
    exact ⟨[], rfl, by simp [String.join, h], by simp⟩
  | cons f rest ih =>
    intro parent fs i n buf buf' h
    rw [marshalFields] at h
    simp only [bind, Except.bind] at h
    split at h
    · simp [throw, throwThe, MonadExceptOf.throw] at h
    · split at h
      · simp [throw, throwThe, MonadExceptOf.throw] at h
      · split at h
        · split at h
          · simp at h
          · split at h
            · simp [pure, Except.pure] at h
            · rename_i valbuf hvb
              obtain ⟨pieces, hlen, hbuf, hshape⟩ := ih parent fs (i + 1) n _ buf' h
              refine ⟨(renderString f.jsonFieldName ++ ":" ++ valbuf ++
                (if i ≠ n - 1 then "," else "")) :: pieces, by simp [hlen], ?_, ?_⟩
              · rw [hbuf, joinCons]
                simp [String.append_assoc, ite_not]
              · intro j hj
                cases j with
                | zero => exact ⟨valbuf, by simp [List.getD, dfltField]⟩
                | succ jp =>
                  obtain ⟨vb, hvb⟩ := hshape jp (by simpa using hj)
                  refine ⟨vb, ?_⟩
                  simp only [List.getD_cons_succ]
                  rw [hvb]
                  rw [show i + 1 + jp = i + (jp + 1) by omega]
        · simp only [pure, Except.pure] at h
          split at h
          · simp at h
          · rename_i valbuf hvb
            obtain ⟨pieces, hlen, hbuf, hshape⟩ := ih parent fs (i + 1) n _ buf' h
            refine ⟨(renderString f.jsonFieldName ++ ":" ++ valbuf ++
              (if i ≠ n - 1 then "," else "")) :: pieces, by simp [hlen], ?_, ?_⟩
            · rw [hbuf, joinCons]
              simp [String.append_assoc, ite_not]
            · intro j hj
              cases j with
              | zero => exact ⟨valbuf, by simp [List.getD, dfltField]⟩
              | succ jp =>
                obtain ⟨vb, hvb⟩ := hshape jp (by simpa using hj)
                refine ⟨vb, ?_⟩
                simp only [List.getD_cons_succ]
                rw [hvb]
                rw [show i + 1 + jp = i + (jp + 1) by omega]

theorem alookup_aset_ne {α : Type} (l : List (String × α)) (k m : String) (v : α)
    (hne : k ≠ m) : alookup (aset l k v) m = alookup l m := by
  induction l with
  | nil => simp [aset]
  | cons p rest ih =>
    obtain ⟨pk, pv⟩ := p
    by_cases hk : pk = k
    · subst hk
      simp [aset, alookup, hne]
    · simp [aset, alookup, hk]
      by_cases hm : pk = m
      · simp [hm]
      · simp [hm, ih]

theorem unmarshalFields_preserve :
    ∀ (flds : List MappedField) (data : List (String × JValue))
      (cur0 : List (String × GoValue)) (errs0 : List FieldError)
      (cur : List (String × GoValue)) (errs : List FieldError),
    unmarshalFields flds data cur0 errs0 = .ok (cur, errs) →
    ∀ m, (∀ f ∈ flds, f.readOnly = false → f.structFieldName ≠ m) →
    alookup cur m = alookup cur0 m := by
  intro flds
  induction flds with
  | nil =>
    intro data cur0 errs0 cur errs h m _
    rw [unmarshalFields] at h
    simp [pure, Except.pure] at h
    rw [← h.1]
  | cons f0 rest ih =>
    intro data cur0 errs0 cur errs h m hnw
    have hnwr : ∀ f ∈ rest, f.readOnly = false → f.structFieldName ≠ m :=
      fun f hf => hnw f (by simp [hf])
    rw [unmarshalFields] at h
    simp only [bind, Except.bind] at h
    split at h
    · exact ih _ _ _ _ _ h m hnwr
    · rename_i hro
      have hne : f0.structFieldName ≠ m :=
        hnw f0 (by simp) (by simpa using hro)
      split at h
      · simp [throw, throwThe, MonadExceptOf.throw] at h
      · split at h
        · split at h
          · exact ih _ _ _ _ _ h m hnwr
          · exact ih _ _ _ _ _ h m hnwr
        · split at h
          · exact ih _ _ _ _ _ h m hnwr
          · split at h
            · split at h
              · simp at h
              · split at h
                · rw [ih _ _ _ _ _ h m hnwr]
                  exact alookup_aset_ne cur0 f0.structFieldName m _ hne
                · rw [ih _ _ _ _ _ h m hnwr]
                  exact alookup_aset_ne cur0 f0.structFieldName m _ hne
            · split at h
              · split at h
                · rw [ih _ _ _ _ _ h m hnwr]
                  exact alookup_aset_ne cur0 f0.structFieldName m _ hne
                · simp [throw, throwThe, MonadExceptOf.throw] at h
                · exact ih _ _ _ _ _ h m hnwr
              · simp [throw, throwThe, MonadExceptOf.throw] at h

theorem structMarshal_pieces (u : List (String × GoValue)) (flds : List MappedField)
    (p : Option GoValue) (fs2 : List (String × GoValue)) (out : String)
    (hm : marshalNode (.structMap u flds) p (.vStruct fs2) = .ok (.ok out)) :
    ∃ pieces : List String,
      pieces.length = flds.length ∧
      out = "\x7b" ++ String.join pieces ++ "\x7d" ∧
      ∀ j, j < flds.length → ∃ valbuf,
        pieces.getD j "" =
          renderString ((flds.getD j dfltField).jsonFieldName) ++ ":" ++ valbuf ++
            (if j ≠ flds.length - 1 then "," else "") := by
  rw [marshalNode] at hm
  simp only [unwrapForMarshal] at hm
  simp only [bind, Except.bind] at hm
  split at hm
  · split at hm
    · simp at hm
    · split at hm
      · simp [pure, Except.pure] at hm
      · rename_i buf hbuf
        obtain ⟨pieces, hlen, hb, hshape⟩ :=
          marshalFields_pieces flds (.vStruct fs2) fs2 0 flds.length "\x7b" buf hbuf
        simp [pure, Except.pure] at hm
        refine ⟨pieces, hlen, ?_, ?_⟩
        · rw [← hm, hb]
        · intro j hj
          obtain ⟨vb, hvb⟩ := hshape j hj
          exact ⟨vb, by simpa using hvb⟩
  · simp [throw, throwThe, MonadExceptOf.throw] at hm

/-- C4.  Read-only fields: the decode loop skips every descriptor whose
`ReadOnly` flag is set, so (provided no other, writable descriptor names
the same struct member) the destination member keeps its pre-call value
whatever the input contained under that field's external key; the encode
loop has no read-only check, so every descriptor — read-only ones
included — contributes its `"name":value` piece to the output object. -/
theorem C4_read_only_fields
    (u : List (String × GoValue)) (flds : List MappedField) (p p2 : Option GoValue)
    (data : List (String × JValue)) (fs cur fs2 : List (String × GoValue))
    (errs : List FieldError) (out : String) (fro : MappedField)
    (_hmem : fro ∈ flds) (_hro : fro.readOnly = true)
    (hdist : ∀ f ∈ flds, f.readOnly = false → f.structFieldName ≠ fro.structFieldName)
    (hrun : unmarshalFields flds data fs [] = .ok (cur, errs))
    (hm : marshalNode (.structMap u flds) p2 (.vStruct fs2) = .ok (.ok out)) :
    unmarshalNode (.structMap u flds) p (.jobj data) (.vStruct fs) =
      .ok (.vStruct cur, wrapFieldErrors errs) ∧
    alookup cur fro.structFieldName = alookup fs fro.structFieldName ∧
    ∃ pieces : List String,
      pieces.length = flds.length ∧
      out = "\x7b" ++ String.join pieces ++ "\x7d" ∧
      ∀ j, j < flds.length → ∃ valbuf,
        pieces.getD j "" =
          renderString ((flds.getD j dfltField).jsonFieldName) ++ ":" ++ valbuf ++
            (if j ≠ flds.length - 1 then "," else "") := by
  refine ⟨?_, ?_, ?_⟩
  · rw [unmarshalNode]
    rw [hrun]
    simp [bind, Except.bind, pure, Except.pure]
  · exact unmarshalFields_preserve flds data fs [] cur errs hrun _ hdist
  · exact structMarshal_pieces u flds p2 fs2 out hm

/-- Witness for C4: the input tries to overwrite the read-only `secret`
field, but the decoded struct keeps `keep` there while `foo` is updated;
the same mapping still emits `"secret"` when encoding. -/
theorem C4_read_only_fields_witness :
    unmarshalNode
        (.structMap [("Secret", .vStr ""), ("Foo", .vStr "")]
          [.mk "Secret" "secret" none (some (.stringV 0 100)) false true,
           .mk "Foo" "foo" none (some (.stringV 0 100)) false false]) none
        (.jobj [("secret", .jstr "evil"), ("foo", .jstr "x")])
        (.vStruct [("Secret", .vStr "keep"), ("Foo", .vStr "")]) =
      .ok (.vStruct [("Secret", .vStr "keep"), ("Foo", .vStr "x")], none) ∧
    alookup [("Secret", GoValue.vStr "keep"), ("Foo", GoValue.vStr "x")] "Secret" =
      alookup [("Secret", GoValue.vStr "keep"), ("Foo", GoValue.vStr "")] "Secret" ∧
    (∃ pieces : List String,
      pieces.length = 2 ∧
      "\x7b\"secret\":\"keep\",\"foo\":\"x\"\x7d" =
        "\x7b" ++ String.join pieces ++ "\x7d" ∧
      ∀ j, j < 2 → ∃ valbuf,
        pieces.getD j "" =
          renderString (([MappedField.mk "Secret" "secret" none (some (.stringV 0 100)) false true,
            MappedField.mk "Foo" "foo" none (some (.stringV 0 100)) false false].getD j
              dfltField).jsonFieldName) ++ ":" ++ valbuf ++
            (if j ≠ 2 - 1 then "," else "")) := by
  have hsec : renderString "secret" = "\"secret\"" := rfl
  have hfoo : renderString "foo" = "\"foo\"" := rfl
  have hkeep : renderString "keep" = "\"keep\"" := rfl
  have hx : renderString "x" = "\"x\"" := rfl
  have hrun : unmarshalFields
      [.mk "Secret" "secret" none (some (.stringV 0 100)) false true,
       .mk "Foo" "foo" none (some (.stringV 0 100)) false false]
      [("secret", .jstr "evil"), ("foo", .jstr "x")]
      [("Secret", .vStr "keep"), ("Foo", .vStr "")] [] =
      .ok ([("Secret", .vStr "keep"), ("Foo", .vStr "x")], []) := by
    simp [unmarshalFields, GoValidator.validate, alookup, aset, JValue.isNull,
      MappedField.readOnly, MappedField.optional, MappedField.contains,
      MappedField.validator, MappedField.structFieldName, MappedField.jsonFieldName,
      String.utf8ByteSize, String.utf8ByteSize.go, Char.utf8Size,
      bind, Except.bind, pure, Except.pure]
  have hm : marshalNode
      (.structMap [("Secret", .vStr ""), ("Foo", .vStr "")]
        [.mk "Secret" "secret" none (some (.stringV 0 100)) false true,
         .mk "Foo" "foo" none (some (.stringV 0 100)) false false]) none
      (.vStruct [("Secret", .vStr "keep"), ("Foo", .vStr "x")]) =
      .ok (.ok "\x7b\"secret\":\"keep\",\"foo\":\"x\"\x7d") := by
    simp [marshalNode, marshalFields, unwrapForMarshal, renderGo, alookup,
      MappedField.structFieldName, MappedField.jsonFieldName, MappedField.contains,
      hsec, hfoo, hkeep, hx, bind, Except.bind, pure, Except.pure]
  obtain ⟨h1, h2, h3⟩ := C4_read_only_fields
    [("Secret", .vStr ""), ("Foo", .vStr "")]
    [.mk "Secret" "secret" none (some (.stringV 0 100)) false true,
     .mk "Foo" "foo" none (some (.stringV 0 100)) false false] none none
    [("secret", .jstr "evil"), ("foo", .jstr "x")]
    [("Secret", .vStr "keep"), ("Foo", .vStr "")]
    [("Secret", .vStr "keep"), ("Foo", .vStr "x")]
    [("Secret", .vStr "keep"), ("Foo", .vStr "x")]
    [] "\x7b\"secret\":\"keep\",\"foo\":\"x\"\x7d"
    (.mk "Secret" "secret" none (some (.stringV 0 100)) false true)
    (by simp) rfl
    (by
      intro f hf
      rcases List.mem_cons.mp hf with rfl | hf2
      · intro hc; simp [MappedField.readOnly] at hc
      · rcases List.mem_cons.mp hf2 with rfl | hf3
        · intro _; simp [MappedField.structFieldName]
        · exact absurd hf3 (by simp))
    hrun hm
  exact ⟨h1, h2, h3⟩

/-- C9.  For every successful struct encode of a non-nil source value,
the produced object is the brace-wrapped concatenation of one
`"name":value` piece per descriptor, in descriptor (declaration) order —
the `j`-th piece carries the `j`-th descriptor's external name — with a
comma after every piece but the last; the order is the mapping's, never
alphabetical. -/
theorem C9_marshal_descriptor_order
    (u : List (String × GoValue)) (flds : List MappedField) (p : Option GoValue)
    (fs2 : List (String × GoValue)) (out : String)
    (hm : marshalNode (.structMap u flds) p (.vStruct fs2) = .ok (.ok out)) :
    ∃ pieces : List String,
      pieces.length = flds.length ∧
      out = "\x7b" ++ String.join pieces ++ "\x7d" ∧
      ∀ j, j < flds.length → ∃ valbuf,
        pieces.getD j "" =
          renderString ((flds.getD j dfltField).jsonFieldName) ++ ":" ++ valbuf ++
            (if j ≠ flds.length - 1 then "," else "") :=
  structMarshal_pieces u flds p fs2 out hm

/-- Witness for C9: the mapping declares `zeta` before `alpha`; the
emitted object carries `"zeta"` first even though alphabetical order
would put `"alpha"` first. -/
theorem C9_marshal_descriptor_order_witness :
    marshalNode
        (.structMap [("Z", .vStr ""), ("A", .vBool false)]
          [.mk "Z" "zeta" none (some (.stringV 0 10)) false false,
           .mk "A" "alpha" none (some .booleanV) false false]) none
        (.vStruct [("Z", .vStr "z"), ("A", .vBool true)]) =
      .ok (.ok "\x7b\"zeta\":\"z\",\"alpha\":true\x7d") ∧
    (∃ pieces : List String,
      pieces.length = 2 ∧
      "\x7b\"zeta\":\"z\",\"alpha\":true\x7d" = "\x7b" ++ String.join pieces ++ "\x7d" ∧
      ∀ j, j < 2 → ∃ valbuf,
        pieces.getD j "" =
          renderString (([MappedField.mk "Z" "zeta" none (some (.stringV 0 10)) false false,
            MappedField.mk "A" "alpha" none (some .booleanV) false false].getD j
              dfltField).jsonFieldName) ++ ":" ++ valbuf ++
            (if j ≠ 2 - 1 then "," else "")) := by
  have hz : renderString "zeta" = "\"zeta\"" := rfl
  have ha : renderString "alpha" = "\"alpha\"" := rfl
  have hv : renderString "z" = "\"z\"" := rfl
  have hm : marshalNode
      (.structMap [("Z", .vStr ""), ("A", .vBool false)]
        [.mk "Z" "zeta" none (some (.stringV 0 10)) false false,
         .mk "A" "alpha" none (some .booleanV) false false]) none
      (.vStruct [("Z", .vStr "z"), ("A", .vBool true)]) =
      .ok (.ok "\x7b\"zeta\":\"z\",\"alpha\":true\x7d") := by
    simp [marshalNode, marshalFields, unwrapForMarshal, renderGo, alookup,
      MappedField.structFieldName, MappedField.jsonFieldName, MappedField.contains,
      hz, ha, hv, bind, Except.bind, pure, Except.pure]
  exact ⟨hm, C9_marshal_descriptor_order
    [("Z", .vStr ""), ("A", .vBool false)]
    [.mk "Z" "zeta" none (some (.stringV 0 10)) false false,
     .mk "A" "alpha" none (some .booleanV) false false] none
    [("Z", .vStr "z"), ("A", .vBool true)]
    "\x7b\"zeta\":\"z\",\"alpha\":true\x7d" hm⟩

/-!
## Round-trip facts about the parser model
-/

theorem strMkData (s : String) : String.mk s.data = s := by
  cases s
  rfl

theorem hexVal_hexDigit (n : ℕ) (h : n < 16) : hexVal (hexDigit n) = some n := by
  interval_cases n <;> decide

theorem parseStringBody_escAll (cs : List Char) :
    ∀ r, parseStringBody (escAll cs ++ '"' :: r) = some (cs, r) := by
  induction cs with
  | nil => intro r; rfl
  | cons c cs ih =>
    intro r
    by_cases h1 : c = '"'
    · subst h1; simp [escAll, escapeChar, parseStringBody, ih]
    · by_cases h2 : c = '\\'
      · subst h2; simp [escAll, escapeChar, parseStringBody, ih]
      · by_cases h3 : c = '\n'
        · subst h3; simp [escAll, escapeChar, parseStringBody, ih]
        · by_cases h4 : c = '\r'
          · subst h4; simp [escAll, escapeChar, parseStringBody, ih]
          · by_cases h5 : c = '\t'
            · subst h5; simp [escAll, escapeChar, parseStringBody, ih]
            · by_cases h6 : c.toNat < 0x20 ∨ c = '<' ∨ c = '>' ∨ c = '&'
              · have hlt : c.toNat < 256 := by
                  rcases h6 with h6 | h6 | h6 | h6
                  · omega
                  all_goals subst h6; decide
                have hdiv : c.toNat / 16 < 16 := by omega
                have hmod : c.toNat % 16 < 16 := by omega
                have hv0 : hexVal '0' = some 0 := by decide
                have he : escapeChar c = "\\u00" ++ String.singleton (hexDigit (c.toNat / 16)) ++
                    String.singleton (hexDigit (c.toNat % 16)) := by
                  simp [escapeChar, h1, h2, h3, h4, h5, h6]
                have hd1 : ∀ ch : Char, (String.singleton ch).data = [ch] := fun _ => rfl
                simp only [escAll, he, String.data_append, hd1, List.append_assoc, List.cons_append,
                  List.nil_append]
                simp [parseStringBody, hv0, hexVal_hexDigit _ hdiv, hexVal_hexDigit _ hmod, ih]
                rw [show c.toNat / 16 * 16 + c.toNat % 16 = c.toNat by omega, Char.ofNat_toNat]
              · push_neg at h6
                obtain ⟨h6a, h6b, h6c, h6d⟩ := h6
                by_cases h7 : c.toNat = 0x2028
                · have he : escapeChar c = "\\u2028" := by
                    simp [escapeChar, h1, h2, h3, h4, h5, h6a, h6b, h6c, h6d, h7]
                  simp only [escAll, he, String.data_append, List.append_assoc, List.cons_append,
                    List.nil_append]
                  simp [parseStringBody, ih, show hexVal '2' = some 2 from by decide,
                    show hexVal '0' = some 0 from by decide, show hexVal '8' = some 8 from by decide]
                  rw [← h7, Char.ofNat_toNat]
                · by_cases h8 : c.toNat = 0x2029
                  · have he : escapeChar c = "\\u2029" := by
                      simp [escapeChar, h1, h2, h3, h4, h5, h6a, h6b, h6c, h6d, h7, h8]
                    simp only [escAll, he, String.data_append, List.append_assoc, List.cons_append,
                      List.nil_append]
                    simp [parseStringBody, ih, show hexVal '2' = some 2 from by decide,
                      show hexVal '0' = some 0 from by decide, show hexVal '9' = some 9 from by decide]
                    rw [← h8, Char.ofNat_toNat]
                  · have he : escapeChar c = String.singleton c := by
                      simp [escapeChar, h1, h2, h3, h4, h5, h6a, h6b, h6c, h6d, h7, h8]
                    have hd1 : (String.singleton c).data = [c] := rfl
                    simp only [escAll, he, hd1, List.cons_append, List.nil_append]
                    simp [parseStringBody, h1, h2, ih]

theorem strLenData (s : String) : s.length = s.data.length := rfl

/-- A marshalled fragment that parses back to exactly `jv` at any
sufficient fuel, leaving a member-position continuation (a comma or the
closing brace) untouched. -/
def FragOk (frag : String) (jv : JValue) : Prop :=
  ∀ fuel, frag.length + 1 ≤ fuel → ∀ ext : List Char,
    (ext.head? = some ',' ∨ ext.head? = some rbrace) →
    parseValueF fuel (frag.data ++ ext) = some (jv, ext)

/-- The text the field loop of `StructMap.Marshal` appends from position
`i` of `n`, for the given `(external name, fragment)` pairs. -/
def fieldsTextFrom : List (String × String) → ℕ → ℕ → List Char
  | [], _, _ => []
  | (name, frag) :: rest, i, n =>
    '"' :: (escAll name.data ++ '"' :: ':' :: (frag.data ++
      ((if i ≠ n - 1 then [','] else []) ++ fieldsTextFrom rest (i + 1) n)))

/-- The same member text with the separators made positional: one
`"name":fragment` member per pair, comma-separated. -/
def membersData : List (String × String) → List Char
  | [] => []
  | [(name, frag)] => '"' :: (escAll name.data ++ '"' :: ':' :: frag.data)
  | (name, frag) :: rest =>
    '"' :: (escAll name.data ++ '"' :: ':' :: (frag.data ++ ',' :: membersData rest))

/-- Fuel bound for the member loop of the parser on rendered members. -/
def memLen : List (String × String) → ℕ
  | [] => 0
  | (name, frag) :: rest => (escAll name.data).length + 3 + frag.length + 1 + memLen rest

theorem fieldsTextFrom_eq_membersData :
    ∀ (pairs : List (String × String)) (i n : ℕ), i + pairs.length = n → pairs ≠ [] →
    fieldsTextFrom pairs i n = membersData pairs := by
  intro pairs
  induction pairs with
  | nil => intro i n _ hne; exact absurd rfl hne
  | cons p rest ih =>
    intro i n hlen _
    obtain ⟨name, frag⟩ := p
    cases rest with
    | nil =>
      have hin : i = n - 1 := by simp at hlen; omega
      simp [fieldsTextFrom, membersData, hin]
    | cons q rest2 =>
      have hin : i ≠ n - 1 := by simp at hlen; omega
      rw [show fieldsTextFrom ((name, frag) :: q :: rest2) i n =
        '"' :: (escAll name.data ++ '"' :: ':' :: (frag.data ++
          ((if i ≠ n - 1 then [','] else []) ++ fieldsTextFrom (q :: rest2) (i + 1) n)))
        from rfl]
      rw [ih (i + 1) n (by simp at hlen ⊢; omega) (by simp)]
      rw [show membersData ((name, frag) :: q :: rest2) =
        '"' :: (escAll name.data ++ '"' :: ':' :: (frag.data ++ ',' :: membersData (q :: rest2)))
        from rfl]
      simp [hin]

theorem memLen_eq :
    ∀ (pairs : List (String × String)), pairs ≠ [] →
    memLen pairs = (membersData pairs).length + 1 := by
  intro pairs
  induction pairs with
  | nil => intro h; exact absurd rfl h
  | cons p rest ih =>
    intro _
    obtain ⟨name, frag⟩ := p
    cases rest with
    | nil =>
      rw [show memLen [(name, frag)] =
        (escAll name.data).length + 3 + frag.length + 1 + memLen [] from rfl]
      rw [show membersData [(name, frag)] =
        '"' :: (escAll name.data ++ '"' :: ':' :: frag.data) from rfl]
      rw [show memLen ([] : List (String × String)) = 0 from rfl]
      simp only [List.length_cons, List.length_append]
      rw [strLenData]
      omega
    | cons q rest2 =>
      have hr := ih (by simp)
      rw [show memLen ((name, frag) :: q :: rest2) =
        (escAll name.data).length + 3 + frag.length + 1 + memLen (q :: rest2) from rfl]
      rw [show membersData ((name, frag) :: q :: rest2) =
        '"' :: (escAll name.data ++ '"' :: ':' :: (frag.data ++ ',' :: membersData (q :: rest2)))
        from rfl]
      rw [hr]
      simp only [List.length_cons, List.length_append]
      rw [strLenData]
      omega

theorem membersData_head (p : String × String) (ps : List (String × String)) :
    ∃ tail, membersData (p :: ps) = '"' :: tail := by
  obtain ⟨name, frag⟩ := p
  cases ps with
  | nil => exact ⟨_, rfl⟩
  | cons q rest => exact ⟨_, rfl⟩

theorem getD_map_eq {α β : Type} (f : α → β) :
    ∀ (l : List α) (j : ℕ) (d : α), (l.map f).getD j (f d) = f (l.getD j d) := by
  intro l
  induction l with
  | nil => intro j d; simp
  | cons x xs ih =>
    intro j d
    cases j with
    | zero => simp
    | succ jp => simpa using ih jp d

theorem alookup_nodup_getD {α : Type} :
    ∀ (l : List (String × α)) (j : ℕ) (d : String × α), j < l.length →
    (l.map Prod.fst).Nodup →
    alookup l (l.getD j d).1 = some (l.getD j d).2 := by
  intro l
  induction l with
  | nil => intro j d hj; exact absurd hj (by simp)
  | cons p rest ih =>
    intro j d hj hnd
    obtain ⟨pk, pv⟩ := p
    cases j with
    | zero => simp [alookup]
    | succ jp =>
      have hjp : jp < rest.length := by simpa using hj
      have hndr : (rest.map Prod.fst).Nodup := by
        simp only [List.map_cons, List.nodup_cons] at hnd
        exact hnd.2
      have hmem : (rest.getD jp d) ∈ rest := by
        rw [List.getD_eq_getElem?_getD]
        rw [List.getElem?_eq_getElem hjp]
        exact List.getElem_mem _
      have hkne : pk ≠ (rest.getD jp d).1 := by
        intro hc
        have : pk ∈ rest.map Prod.fst := hc ▸ List.mem_map_of_mem Prod.fst hmem
        simp only [List.map_cons, List.nodup_cons] at hnd
        exact hnd.1 this
      simp only [List.getD_cons_succ, alookup]
      rw [if_neg hkne]
      exact ih jp d hjp hndr

theorem alookup_append_head {α : Type} :
    ∀ (l1 : List (String × α)) (l2 : List (String × α)) (k : String) (v : α),
    k ∉ l1.map Prod.fst → alookup (l1 ++ (k, v) :: l2) k = some v := by
  intro l1
  induction l1 with
  | nil => intro l2 k v _; simp [alookup]
  | cons p rest ih =>
    intro l2 k v h
    obtain ⟨pk, pv⟩ := p
    have hne : pk ≠ k := by
      intro hc
      exact h (by simp [hc])
    simp only [List.cons_append, alookup]
    rw [if_neg hne]
    exact ih l2 k v (by intro hc; exact h (by simp [hc]))

theorem aset_append_head {α : Type} :
    ∀ (l1 : List (String × α)) (l2 : List (String × α)) (k : String) (v nv : α),
    k ∉ l1.map Prod.fst →
    aset (l1 ++ (k, v) :: l2) k nv = l1 ++ (k, nv) :: l2 := by
  intro l1
  induction l1 with
  | nil => intro l2 k v nv _; simp [aset]
  | cons p rest ih =>
    intro l2 k v nv h
    obtain ⟨pk, pv⟩ := p
    have hne : pk ≠ k := by
      intro hc
      exact h (by simp [hc])
    simp only [List.cons_append, aset]
    rw [if_neg hne]
    exact congrArg (List.cons (pk, pv)) (ih l2 k v nv (by intro hc; exact h (by simp [hc])))

theorem marshalFields_build :
    ∀ (flds : List MappedField) (pairs : List (String × String)) (parent : GoValue)
      (fsrc : List (String × GoValue)) (i n : ℕ) (buf : String),
    pairs.length = flds.length →
    (∀ j, j < flds.length →
      (flds.getD j dfltField).structFieldName ≠ "" ∧
      (flds.getD j dfltField).contains = none ∧
      (pairs.getD j ("", "")).1 = (flds.getD j dfltField).jsonFieldName ∧
      ∃ v, alookup fsrc (flds.getD j dfltField).structFieldName = some v ∧
        renderGo v = .ok (pairs.getD j ("", "")).2) →
    marshalFields flds parent fsrc i n buf =
      .ok (.ok (buf ++ String.mk (fieldsTextFrom pairs i n))) := by
  intro flds
  induction flds with
  | nil =>
    intro pairs parent fsrc i n buf hlen _
    have hp : pairs = [] := List.length_eq_zero.mp (by simpa using hlen)
    subst hp
    rw [marshalFields]
    have h0 : String.mk (fieldsTextFrom [] i n) = "" := rfl
    simp [pure, Except.pure, h0]
  | cons f rest ih =>
    intro pairs parent fsrc i n buf hlen hper
    cases pairs with
    | nil => simp at hlen
    | cons p prest =>
      obtain ⟨name, frag⟩ := p
      obtain ⟨hsf, hcont, hname, v, hv, hr⟩ := by
        have h0 := hper 0 (by simp)
        simpa using h0
      rw [marshalFields]
      rw [if_neg hsf]
      rw [hv]
      simp only [bind, Except.bind]
      split
      · rename_i node hnode
        rw [hcont] at hnode
        simp at hnode
      · simp only [pure, Except.pure, hr]
        have hper2 : ∀ j, j < rest.length →
            (rest.getD j dfltField).structFieldName ≠ "" ∧
            (rest.getD j dfltField).contains = none ∧
            (prest.getD j ("", "")).1 = (rest.getD j dfltField).jsonFieldName ∧
            ∃ v2, alookup fsrc (rest.getD j dfltField).structFieldName = some v2 ∧
              renderGo v2 = .ok (prest.getD j ("", "")).2 := by
          intro j hj
          have hjj := hper (j + 1) (by simpa using hj)
          simpa using hjj
        rw [ih prest parent fsrc (i + 1) n
          (buf ++ renderString f.jsonFieldName ++ ":" ++ frag ++
            (if i ≠ n - 1 then "," else "")) (by simpa using hlen) hper2]
        have hstr : buf ++ renderString f.jsonFieldName ++ ":" ++ frag ++
            (if i ≠ n - 1 then "," else "") ++
            String.mk (fieldsTextFrom prest (i + 1) n) =
            buf ++ String.mk (fieldsTextFrom ((name, frag) :: prest) i n) := by
          apply String.ext
          rw [show fieldsTextFrom ((name, frag) :: prest) i n =
            '"' :: (escAll name.data ++ '"' :: ':' :: (frag.data ++
              ((if i ≠ n - 1 then [','] else []) ++ fieldsTextFrom prest (i + 1) n)))
            from rfl]
          rw [hname]
          simp only [String.data_append, renderString]
          simp [apply_ite String.data]
        rw [hstr]

theorem parseMembers_comp :
    ∀ (items : List (String × String × JValue)),
    items ≠ [] →
    (∀ it ∈ items, FragOk it.2.1 it.2.2) →
    ∀ fuel, memLen (items.map fun it => (it.1, it.2.1)) + 1 ≤ fuel → ∀ ext : List Char,
    parseMembersF fuel (membersData (items.map fun it => (it.1, it.2.1)) ++ rbrace :: ext) =
      some (items.map fun it => (it.1, it.2.2), ext) := by
  have hrb : rbrace = '\x7d' := rfl
  intro items
  induction items with
  | nil => intro h; exact absurd rfl h
  | cons it rest ih =>
    intro _ hfrag fuel hfuel ext
    obtain ⟨name, frag, jv⟩ := it
    have hff : FragOk frag jv := by
      have h0 := hfrag (name, frag, jv) (by simp)
      simpa using h0
    obtain ⟨f, rfl⟩ : ∃ f, fuel = f + 1 := ⟨fuel - 1, by omega⟩
    cases rest with
    | nil =>
      have hflen : frag.length + 1 ≤ f := by
        rw [show (([(name, frag, jv)].map fun it => (it.1, it.2.1))) = [(name, frag)]
          from rfl] at hfuel
        rw [show memLen [(name, frag)] =
          (escAll name.data).length + 3 + frag.length + 1 + memLen [] from rfl] at hfuel
        rw [show memLen ([] : List (String × String)) = 0 from rfl] at hfuel
        omega
      rw [show (([(name, frag, jv)].map fun it => (it.1, it.2.1))) = [(name, frag)] from rfl]
      rw [show membersData [(name, frag)] =
        '"' :: (escAll name.data ++ '"' :: ':' :: frag.data) from rfl]
      simp only [List.cons_append, List.append_assoc]
      rw [parseMembersF]
      rw [parseStringBody_escAll]
      simp only [List.cons_append]
      rw [hff f hflen (rbrace :: ext) (Or.inr rfl)]
      rw [hrb]
      simp [strMkData]
    | cons it2 rest2 =>
      have hflen2 : frag.length + 1 ≤ f := by
        rw [show ((((name, frag, jv) :: it2 :: rest2).map fun it => (it.1, it.2.1))) =
          (name, frag) :: ((it2 :: rest2).map fun it => (it.1, it.2.1)) from rfl] at hfuel
        rw [show memLen ((name, frag) :: ((it2 :: rest2).map fun it => (it.1, it.2.1))) =
          (escAll name.data).length + 3 + frag.length + 1 +
            memLen ((it2 :: rest2).map fun it => (it.1, it.2.1)) from rfl] at hfuel
        omega
      have hfrest : memLen ((it2 :: rest2).map fun it => (it.1, it.2.1)) + 1 ≤ f := by
        rw [show ((((name, frag, jv) :: it2 :: rest2).map fun it => (it.1, it.2.1))) =
          (name, frag) :: ((it2 :: rest2).map fun it => (it.1, it.2.1)) from rfl] at hfuel
        rw [show memLen ((name, frag) :: ((it2 :: rest2).map fun it => (it.1, it.2.1))) =
          (escAll name.data).length + 3 + frag.length + 1 +
            memLen ((it2 :: rest2).map fun it => (it.1, it.2.1)) from rfl] at hfuel
        omega
      rw [show ((((name, frag, jv) :: it2 :: rest2).map fun it => (it.1, it.2.1))) =
        (name, frag) :: ((it2 :: rest2).map fun it => (it.1, it.2.1)) from rfl]
      rw [show membersData ((name, frag) :: ((it2 :: rest2).map fun it => (it.1, it.2.1))) =
        '"' :: (escAll name.data ++ '"' :: ':' ::
          (frag.data ++ ',' :: membersData ((it2 :: rest2).map fun it => (it.1, it.2.1))))
        from rfl]
      simp only [List.cons_append, List.append_assoc]
      rw [parseMembersF]
      rw [parseStringBody_escAll]
      simp only [List.cons_append]
      rw [hff f hflen2 (',' :: (membersData ((it2 :: rest2).map fun it => (it.1, it.2.1)) ++
        rbrace :: ext)) (Or.inl rfl)]
      have hih := ih (by simp) (fun q hq => hfrag q (by simp [hq])) f hfrest ext
      simp only [List.map_cons] at hih
      simp [strMkData, hih]

theorem unmarshalFields_build :
    ∀ (flds : List MappedField) (fs u done : List (String × GoValue))
      (jvs : List JValue) (members : List (String × JValue)),
    flds.map MappedField.structFieldName = fs.map Prod.fst →
    u.map Prod.fst = fs.map Prod.fst →
    jvs.length = flds.length →
    (done.map Prod.fst ++ fs.map Prod.fst).Nodup →
    (∀ j, j < flds.length →
      (flds.getD j dfltField).readOnly = false ∧
      (flds.getD j dfltField).contains = none ∧
      alookup members (flds.getD j dfltField).jsonFieldName = some (jvs.getD j .jnull) ∧
      ((jvs.getD j .jnull).isNull && (flds.getD j dfltField).optional) = false ∧
      ∃ vld, (flds.getD j dfltField).validator = some vld ∧
        vld.validate (jvs.getD j .jnull) = .ok (some (fs.getD j ("", .vIface none)).2)) →
    unmarshalFields flds members (done ++ u) [] = .ok (done ++ fs, []) := by
  intro flds
  induction flds with
  | nil =>
    intro fs u done jvs members halign hukeys _ _ _
    have hfs : fs = [] := by
      cases fs with
      | nil => rfl
      | cons a b => simp at halign
    subst hfs
    have hu : u = [] := by
      cases u with
      | nil => rfl
      | cons a b => simp at hukeys
    subst hu
    rw [unmarshalFields]
    simp [pure, Except.pure]
  | cons f rest ih =>
    intro fs u done jvs members halign hukeys hjlen hnd hper
    cases fs with
    | nil => simp at halign
    | cons kv fs2 =>
      obtain ⟨k, v⟩ := kv
      cases u with
      | nil => simp at hukeys
      | cons pu u2 =>
        obtain ⟨ku, uv⟩ := pu
        cases jvs with
        | nil => simp at hjlen
        | cons jv jvs2 =>
          obtain ⟨hsf, halign2⟩ : f.structFieldName = k ∧
              rest.map MappedField.structFieldName = fs2.map Prod.fst := by
            simpa using halign
          obtain ⟨hku, hukeys2⟩ : ku = k ∧ u2.map Prod.fst = fs2.map Prod.fst := by
            simpa using hukeys
          rw [hku]
          have hjlen2 : jvs2.length = rest.length := by simpa using hjlen
          obtain ⟨hro, hcont, hlook, hnn, vld, hvld, hvv⟩ := by
            have h0 := hper 0 (by simp)
            simpa using h0
          have hknotdone : k ∉ done.map Prod.fst := by
            intro hc
            have hd := (List.nodup_append.mp (by simpa using hnd)).2.2
            exact hd hc (by simp)
          have hnd2 : ((done ++ [(k, v)]).map Prod.fst ++ fs2.map Prod.fst).Nodup := by
            simpa using hnd
          have hper2 : ∀ j, j < rest.length →
              (rest.getD j dfltField).readOnly = false ∧
              (rest.getD j dfltField).contains = none ∧
              alookup members (rest.getD j dfltField).jsonFieldName =
                some (jvs2.getD j .jnull) ∧
              ((jvs2.getD j .jnull).isNull && (rest.getD j dfltField).optional) = false ∧
              ∃ vld2, (rest.getD j dfltField).validator = some vld2 ∧
                vld2.validate (jvs2.getD j .jnull) =
                  .ok (some (fs2.getD j ("", .vIface none)).2) := by
            intro j hj
            have h0 := hper (j + 1) (by simpa using hj)
            simpa using h0
          rw [unmarshalFields]
          rw [if_neg (show ¬(f.readOnly = true) by simp [hro])]
          rw [hsf]
          rw [alookup_append_head done u2 k uv hknotdone]
          rw [hlook]
          dsimp only
          rw [if_neg (show ¬((jv.isNull && f.optional) = true) by
            simp only [Bool.and_eq_true, not_and]
            intro h1 h2
            rw [hnn h1] at h2
            exact absurd h2 (by simp))]
          split
          · rename_i node hnode
            rw [hcont] at hnode
            simp at hnode
          · rw [hvld]
            dsimp only
            rw [hvv]
            dsimp only
            rw [aset_append_head done u2 k uv v hknotdone]
            have hih := ih fs2 u2 (done ++ [(k, v)]) jvs2 members halign2 hukeys2
              hjlen2 hnd2 hper2
            simpa using hih

theorem getTypeMap_structT (reg : List (GoType × TypeNode)) (name : String)
    (m : TypeNode) (hreg : tlookup reg (.structT name) = some m) :
    getTypeMap reg (.structT name) = .ok m := by
  simp [getTypeMap, hreg, pure, Except.pure]

theorem getTypeMap_ptr_structT (reg : List (GoType × TypeNode)) (name : String)
    (m : TypeNode) (hreg : tlookup reg (.structT name) = some m) :
    getTypeMap reg (.ptrT (.structT name)) = .ok m := by
  simp [getTypeMap, hreg, pure, Except.pure]

/-- C3.  Round-trip for a registered struct mapping all of whose fields
map through side-effect-free validators (no nested `Contains` node, no
read-only skip): encoding a valid source structure succeeds, and
decoding the produced bytes into a fresh destination of the registered
pointer type reproduces the source structure member-for-member with no
error.  The per-field hypotheses say exactly that each member's
`json.Marshal` fragment parses back to the `interface{}` value the
parser would hand the validator, and that the validator maps that value
back to the stored member (side-effect-freeness of the field pair). -/
theorem C3_roundtrip
    (reg : List (GoType × TypeNode)) (name : String)
    (u fs : List (String × GoValue)) (flds : List MappedField)
    (items : List (String × String × JValue))
    (hreg : tlookup reg (.structT name) = some (.structMap u flds))
    (hne : flds ≠ [])
    (halign : flds.map MappedField.structFieldName = fs.map Prod.fst)
    (hukeys : u.map Prod.fst = fs.map Prod.fst)
    (hnodupS : (fs.map Prod.fst).Nodup)
    (hnodupJ : (flds.map MappedField.jsonFieldName).Nodup)
    (hitems : items.length = flds.length)
    (hnames : items.map (fun it => it.1) = flds.map MappedField.jsonFieldName)
    (hper : ∀ j, j < flds.length →
      (flds.getD j dfltField).structFieldName ≠ "" ∧
      (flds.getD j dfltField).readOnly = false ∧
      (flds.getD j dfltField).contains = none ∧
      ((items.getD j ("", "", .jnull)).2.2.isNull &&
        (flds.getD j dfltField).optional) = false ∧
      renderGo (fs.getD j ("", .vIface none)).2 =
        .ok (items.getD j ("", "", .jnull)).2.1 ∧
      FragOk (items.getD j ("", "", .jnull)).2.1 (items.getD j ("", "", .jnull)).2.2 ∧
      ∃ vld, (flds.getD j dfltField).validator = some vld ∧
        vld.validate (items.getD j ("", "", .jnull)).2.2 =
          .ok (some (fs.getD j ("", .vIface none)).2)) :
    ∃ out : String,
      tmMarshal reg (.structT name) (.vStruct fs) = .ok (.ok out) ∧
      tmUnmarshal reg out (.mk (.ptrT (.structT name)) (.vStruct u)) =
        .ok (.vStruct fs, none) := by
  have hflen : fs.length = flds.length := by
    have hh := congrArg List.length halign
    simpa using hh.symm
  have hitemsne : items ≠ [] := by
    intro hc
    rw [hc] at hitems
    exact hne (List.length_eq_zero.mp hitems.symm)
  have hname_j : ∀ j, j < flds.length →
      (items.getD j ("", "", .jnull)).1 = (flds.getD j dfltField).jsonFieldName := by
    intro j hj
    have h1 : (items.map fun it => it.1).getD j "" = (items.getD j ("", "", .jnull)).1 :=
      getD_map_eq (fun it => it.1) items j ("", "", .jnull)
    have h2 : (flds.map MappedField.jsonFieldName).getD j "" =
        (flds.getD j dfltField).jsonFieldName :=
      getD_map_eq MappedField.jsonFieldName flds j dfltField
    rw [← h1, hnames, h2]
  have hsfn_j : ∀ j, j < flds.length →
      (fs.getD j ("", .vIface none)).1 = (flds.getD j dfltField).structFieldName := by
    intro j hj
    have h1 : (flds.map MappedField.structFieldName).getD j "" =
        (flds.getD j dfltField).structFieldName :=
      getD_map_eq MappedField.structFieldName flds j dfltField
    have h2 : (fs.map Prod.fst).getD j "" = (fs.getD j ("", .vIface none)).1 :=
      getD_map_eq Prod.fst fs j ("", .vIface none)
    rw [← h1, halign, h2]
  have hplen : (items.map fun it => (it.1, it.2.1)).length = flds.length := by
    simpa using hitems
  have hpne : (items.map fun it => (it.1, it.2.1)) ≠ [] := by
    intro hc
    exact hitemsne (by simpa using hc)
  have hbper : ∀ j, j < flds.length →
      (flds.getD j dfltField).structFieldName ≠ "" ∧
      (flds.getD j dfltField).contains = none ∧
      ((items.map fun it => (it.1, it.2.1)).getD j ("", "")).1 =
        (flds.getD j dfltField).jsonFieldName ∧
      ∃ v, alookup fs (flds.getD j dfltField).structFieldName = some v ∧
        renderGo v = .ok ((items.map fun it => (it.1, it.2.1)).getD j ("", "")).2 := by
    intro j hj
    obtain ⟨h1, _h2, h3, _h4, h5, _h6, _⟩ := hper j hj
    have hgd : (items.map fun it => (it.1, it.2.1)).getD j ("", "") =
        ((items.getD j ("", "", .jnull)).1, (items.getD j ("", "", .jnull)).2.1) :=
      getD_map_eq (fun it => (it.1, it.2.1)) items j ("", "", .jnull)
    refine ⟨h1, h3, ?_, ?_⟩
    · rw [hgd]
      exact hname_j j hj
    · refine ⟨(fs.getD j ("", .vIface none)).2, ?_, ?_⟩
      · have hlk := alookup_nodup_getD fs j ("", .vIface none) (by omega) hnodupS
        rw [hsfn_j j hj] at hlk
        exact hlk
      · rw [hgd]
        exact h5
  have hbuild := marshalFields_build flds (items.map fun it => (it.1, it.2.1))
    (.vStruct fs) fs 0 flds.length "\x7b" hplen hbper
  refine ⟨"\x7b" ++ String.mk
    (fieldsTextFrom (items.map fun it => (it.1, it.2.1)) 0 flds.length) ++ "\x7d", ?_, ?_⟩
  · rw [tmMarshal]
    rw [getTypeMap_structT reg name _ hreg]
    simp only [bind, Except.bind]
    rw [marshalNode]
    rw [show unwrapForMarshal (.vStruct fs) = (false, .vStruct fs) from rfl]
    dsimp only
    rw [if_pos hukeys.symm]
    simp only [bind, Except.bind]
    rw [hbuild]
    rfl
  · have hmd : fieldsTextFrom (items.map fun it => (it.1, it.2.1)) 0 flds.length =
        membersData (items.map fun it => (it.1, it.2.1)) :=
      fieldsTextFrom_eq_membersData _ 0 flds.length (by simpa using hplen) hpne
    have hmk : (String.mk (fieldsTextFrom (items.map fun it => (it.1, it.2.1))
        0 flds.length)).data =
        fieldsTextFrom (items.map fun it => (it.1, it.2.1)) 0 flds.length := rfl
    have hout_data : ("\x7b" ++ String.mk
        (fieldsTextFrom (items.map fun it => (it.1, it.2.1)) 0 flds.length) ++ "\x7d").data =
        lbrace :: (membersData (items.map fun it => (it.1, it.2.1)) ++ rbrace :: []) := by
      rw [String.data_append, String.data_append, hmk, hmd]
      rw [show ("\x7b" : String).data = [lbrace] from rfl]
      rw [show ("\x7d" : String).data = [rbrace] from rfl]
      simp
    have hol : ("\x7b" ++ String.mk
        (fieldsTextFrom (items.map fun it => (it.1, it.2.1)) 0 flds.length) ++ "\x7d").length =
        (membersData (items.map fun it => (it.1, it.2.1))).length + 2 := by
      rw [strLenData, hout_data]
      simp
    have hfragAll : ∀ it ∈ items, FragOk it.2.1 it.2.2 := by
      intro it hit
      obtain ⟨⟨j, hjf⟩, rfl⟩ := List.mem_iff_get.mp hit
      have hj : j < flds.length := by rw [← hitems]; exact hjf
      obtain ⟨_, _, _, _, _, h6, _⟩ := hper j hj
      have hgd : items.getD j ("", "", .jnull) = items.get ⟨j, hjf⟩ :=
        List.getD_eq_get items ("", "", .jnull) hjf
      rw [← hgd]
      exact h6
    have hfuelOK : memLen (items.map fun it => (it.1, it.2.1)) + 1 ≤
        ("\x7b" ++ String.mk
          (fieldsTextFrom (items.map fun it => (it.1, it.2.1)) 0 flds.length) ++
          "\x7d").length := by
      rw [memLen_eq _ hpne, hol]
    have hcomp := parseMembers_comp items hitemsne hfragAll
      (("\x7b" ++ String.mk
        (fieldsTextFrom (items.map fun it => (it.1, it.2.1)) 0 flds.length) ++
        "\x7d").length) hfuelOK []
    obtain ⟨p, ps, hps⟩ : ∃ p ps, (items.map fun it => (it.1, it.2.1)) = p :: ps := by
      cases hc : (items.map fun it => (it.1, it.2.1)) with
      | nil => exact absurd hc hpne
      | cons a b => exact ⟨a, b, rfl⟩
    obtain ⟨ptail, hptail⟩ := membersData_head p ps
    have hpv : parseValueF (("\x7b" ++ String.mk
        (fieldsTextFrom (items.map fun it => (it.1, it.2.1)) 0 flds.length) ++
        "\x7d").length + 1)
        (("\x7b" ++ String.mk
          (fieldsTextFrom (items.map fun it => (it.1, it.2.1)) 0 flds.length) ++
          "\x7d").data) =
        some (.jobj (items.map fun it => (it.1, it.2.2)), []) := by
      rw [hout_data]
      rw [hps, hptail] at hcomp ⊢
      simp only [List.cons_append] at hcomp ⊢
      rw [parseValueF]
      rw [show lbrace = '\x7b' from rfl]
      simp only [show ('\x7b' = 'n') = False by decide, show ('\x7b' = 't') = False by decide,
        show ('\x7b' = 'f') = False by decide, show ('\x7b' = '"') = False by decide,
        show ('\x7b' = '[') = False by decide, show ('\x7b' = '\x7b') = True by decide,
        if_false, if_true, ite_true, ite_false]
      rw [show rbrace = '\x7d' from rfl] at hcomp ⊢
      rw [hcomp]
      all_goals intro r hcontra
      all_goals simp at hcontra
    have hparse : parseJson ("\x7b" ++ String.mk
        (fieldsTextFrom (items.map fun it => (it.1, it.2.1)) 0 flds.length) ++ "\x7d") =
        some (.jobj (items.map fun it => (it.1, it.2.2))) := by
      rw [parseJson]
      rw [hpv]
    have hmkeys : ((items.map fun it => (it.1, it.2.2)).map Prod.fst) =
        flds.map MappedField.jsonFieldName := by
      rw [← hnames]
      simp [List.map_map, Function.comp]
    have hdper : ∀ j, j < flds.length →
        (flds.getD j dfltField).readOnly = false ∧
        (flds.getD j dfltField).contains = none ∧
        alookup (items.map fun it => (it.1, it.2.2)) (flds.getD j dfltField).jsonFieldName =
          some ((items.map fun (it : String × String × JValue) => it.2.2).getD j
            JValue.jnull) ∧
        (((items.map fun (it : String × String × JValue) => it.2.2).getD j
          JValue.jnull).isNull && (flds.getD j dfltField).optional) = false ∧
        ∃ vld, (flds.getD j dfltField).validator = some vld ∧
          vld.validate ((items.map fun (it : String × String × JValue) => it.2.2).getD j
            JValue.jnull) = .ok (some (fs.getD j ("", .vIface none)).2) := by
      intro j hj
      obtain ⟨_h1, h2, h3, h4, _h5, _h6, hvld⟩ := hper j hj
      have hjv : (items.map fun it => it.2.2).getD j .jnull =
          (items.getD j ("", "", .jnull)).2.2 :=
        getD_map_eq (fun it => it.2.2) items j ("", "", .jnull)
      have hmgd : (items.map fun it => (it.1, it.2.2)).getD j ("", .jnull) =
          ((items.getD j ("", "", .jnull)).1, (items.getD j ("", "", .jnull)).2.2) :=
        getD_map_eq (fun it => (it.1, it.2.2)) items j ("", "", .jnull)
      refine ⟨h2, h3, ?_, ?_, ?_⟩
      · have hlk := alookup_nodup_getD (items.map fun it => (it.1, it.2.2)) j ("", .jnull)
          (by rw [List.length_map]; omega) (by rw [hmkeys]; exact hnodupJ)
        rw [hmgd] at hlk
        rw [hname_j j hj] at hlk
        rw [hjv]
        exact hlk
      · rw [hjv]
        exact h4
      · rw [hjv]
        exact hvld
    have hdec := unmarshalFields_build flds fs u [] (items.map fun it => it.2.2)
      (items.map fun it => (it.1, it.2.2)) halign hukeys (by simp [hitems])
      (by simpa using hnodupS) hdper
    have hdec2 : unmarshalFields flds (items.map fun it => (it.1, it.2.2)) u [] =
        .ok (fs, []) := by
      simpa using hdec
    rw [tmUnmarshal]
    rw [if_neg (show ¬¬((GoType.ptrT (.structT name)).isPtrType = true) by
      simp [GoType.isPtrType])]
    rw [tmUnmarshalBody]
    rw [getTypeMap_ptr_structT reg name _ hreg]
    simp only [bind, Except.bind]
    rw [parseTopObject]
    rw [hparse]
    dsimp only
    rw [unmarshalNode]
    simp only [bind, Except.bind]
    rw [hdec2]
    rfl

theorem fragOk_renderString (s : String) : FragOk (renderString s) (.jstr s) := by
  intro fuel hfuel ext _hext
  obtain ⟨f, rfl⟩ : ∃ f, fuel = f + 1 := ⟨fuel - 1, by omega⟩
  have hdata : (renderString s).data = '"' :: (escAll s.data ++ ['"']) := by
    simp [renderString, String.data_append]
  rw [hdata]
  simp only [List.cons_append, List.append_assoc, List.nil_append]
  rw [show parseValueF (f + 1) ('"' :: (escAll s.data ++ '"' :: ext)) =
    (match parseStringBody (escAll s.data ++ '"' :: ext) with
     | some (cs, r) => some (JValue.jstr (String.mk cs), r)
     | none => none) from rfl]
  rw [parseStringBody_escAll]

theorem fragOk_true : FragOk "true" (.jbool true) := by
  intro fuel hfuel ext _hext
  obtain ⟨f, rfl⟩ : ∃ f, fuel = f + 1 := ⟨fuel - 1, by omega⟩
  rw [show ("true" : String).data = ['t', 'r', 'u', 'e'] from rfl]
  simp only [List.cons_append, List.nil_append]
  rfl

theorem fragOk_seven : FragOk "7" (.jnum 7) := by
  intro fuel hfuel ext hext
  obtain ⟨f, rfl⟩ : ∃ f, fuel = f + 1 := ⟨fuel - 1, by omega⟩
  rw [show ("7" : String).data = ['7'] from rfl]
  simp only [List.cons_append, List.nil_append]
  have htd : takeDigits ext 7 = (7, ext) := by
    rcases hext with h | h
    · cases ext with
      | nil => simp at h
      | cons c t =>
        simp at h
        rw [h]
        simp [takeDigits]
    · cases ext with
      | nil => simp at h
      | cons c t =>
        simp at h
        rw [h]
        rw [show rbrace = '\x7d' from rfl]
        simp [takeDigits]
  have hpn : parseNumber ('7' :: ext) = some ((7 : ℚ), ext) := by
    simp [parseNumber, parseNat, htd]
  rw [show parseValueF (f + 1) ('7' :: ext) =
    (match parseNumber ('7' :: ext) with
     | some (q, r) => some (JValue.jnum q, r)
     | none => none) from rfl]
  rw [hpn]

/-- Witness for C3: the `InnerThing` mapping with source
`{Foo: "bar", AnInt: 7, ABool: true}` — `Marshal` succeeds and
`Unmarshal` of its output into a fresh zero `InnerThing` behind the
destination pointer reproduces the source members exactly, with no
error. -/
theorem C3_roundtrip_witness :
    ∃ out : String,
      tmMarshal innerThingReg (.structT "InnerThing")
          (.vStruct [("Foo", .vStr "bar"), ("AnInt", .vInt 7), ("ABool", .vBool true)]) =
        .ok (.ok out) ∧
      tmUnmarshal innerThingReg out
          (.mk (.ptrT (.structT "InnerThing")) (.vStruct innerThingZero)) =
        .ok (.vStruct [("Foo", .vStr "bar"), ("AnInt", .vInt 7), ("ABool", .vBool true)],
          none) := by
  refine C3_roundtrip innerThingReg "InnerThing" innerThingZero
    [("Foo", .vStr "bar"), ("AnInt", .vInt 7), ("ABool", .vBool true)]
    innerThingFields
    [("foo", "\"bar\"", .jstr "bar"), ("an_int", "7", .jnum 7),
     ("a_bool", "true", .jbool true)]
    rfl (by simp [innerThingFields]) rfl rfl (by simp)
    (by simp [innerThingFields, MappedField.jsonFieldName]) rfl rfl ?_
  intro j hj
  have hj3 : j < 3 := by simpa [innerThingFields] using hj
  interval_cases j
  · exact ⟨by simp [innerThingFields, MappedField.structFieldName], rfl, rfl, rfl,
      by simp [innerThingFields, renderGo]; rfl, fragOk_renderString "bar",
      ⟨.stringV 1 12, rfl, by simp [GoValidator.validate, String.utf8ByteSize,
        String.utf8ByteSize.go, Char.utf8Size]⟩⟩
  · exact ⟨by simp [innerThingFields, MappedField.structFieldName], rfl, rfl, rfl,
      by simp [innerThingFields, renderGo]; rfl, fragOk_seven,
      ⟨.integerV 0 10, rfl, by simp [GoValidator.validate, cvttsd2si, ratTrunc, f64ofInt]⟩⟩
  · exact ⟨by simp [innerThingFields, MappedField.structFieldName], rfl, rfl, rfl,
      by simp [innerThingFields, renderGo], fragOk_true,
      ⟨.booleanV, rfl, by simp [GoValidator.validate]⟩⟩
